import Mathlib

/-!
Verification of the "bracket tree" reader/writer core of the kicad_liberator
repository (src/bracket_tree.py): tokenizer, parser, in-memory node model
with parent back-references, and the indenting serializer.

The embedding follows the Python source closely:
* `tokenize` is the character scan with a quoting flag, a pending word
  buffer, and a word-type mode (`TOKEN_KEYWORD` / `TOKEN_WORD`).
* The object graph of `Node` values is modelled as a heap (`List NodeData`):
  a node is an index, `parent` is an optional index, `child` is the mixed
  ordered sequence of node references and attribute strings.
* `parse` folds `pstep` over the token list, mirroring the Python loop
  (`root`, `node`, `stack`); every failure path of the Python code
  (assertion failure, attribute access on `None`, pop from an empty list)
  becomes the single error `ParseError.malformedDocument`, the name the
  specification gives to parser failures.
* `dump` works on the pure tree view `BTree` (keyword plus mixed ordered
  children); `extractTree` reads such a tree back out of a parsed heap.
-/

namespace BracketTree

/-- Token types of the tokenizer: `TOKEN_WORD`, `TOKEN_KEYWORD`,
`TOKEN_OPEN`, `TOKEN_CLOSE`. -/
inductive TokenType where
  | WORD
  | KEYWORD
  | OPEN
  | CLOSE
deriving DecidableEq, Repr

/-- The `Token` namedtuple: a type and the payload text. -/
structure Token where
  type : TokenType
  data : String
deriving DecidableEq, Repr

/-- Python's `str.isspace` on single characters (the whitespace set used by
the tokenizer): ASCII whitespace, the C1 and Unicode space characters. -/
def isPySpace (c : Char) : Bool :=
  let n := c.toNat
  (9 ≤ n && n ≤ 13) || n == 32 || (28 ≤ n && n ≤ 31) || n == 133 ||
    n == 160 || n == 5760 || (8192 ≤ n && n ≤ 8202) || n == 8232 ||
    n == 8233 || n == 8239 || n == 8287 || n == 12288

/-- Tokenizer state: the `quote` flag, the pending word type
(`word_token`) and the pending word buffer (`word`). -/
structure TState where
  quote : Bool
  word_token : TokenType
  word : String
deriving DecidableEq, Repr

/-- One character of the tokenizer loop; returns the next state and the
tokens emitted for this character, in order. -/
def tokStep (s : TState) (c : Char) : TState × List Token :=
  if s.quote = false ∧ c = '"' then
    ({ s with quote := true }, [])
  else if s.quote = true ∧ c = '"' then
    (⟨false, .WORD, ""⟩, [⟨s.word_token, s.word⟩])
  else if s.quote then
    ({ s with word := s.word.push c }, [])
  else if c = '(' ∨ c = ')' then
    (⟨false, if c = '(' then .KEYWORD else .WORD, ""⟩,
      (if s.word ≠ "" then [⟨s.word_token, s.word⟩] else []) ++
        [⟨if c = '(' then .OPEN else .CLOSE, String.singleton c⟩])
  else if isPySpace c then
    if s.word ≠ "" then (⟨false, .WORD, ""⟩, [⟨s.word_token, s.word⟩])
    else (s, [])
  else
    ({ s with word := s.word.push c }, [])

/-- The tokenizer loop over the remaining characters: accumulated tokens and
the final state.  At end of input the loop just stops: a still-pending word
is not emitted (the Python loop `break`s and returns `tokens`). -/
def tokenizeAux : List Char → TState → List Token × TState
  | [], s => ([], s)
  | c :: cs, s =>
    let p := tokStep s c
    let q := tokenizeAux cs p.1
    (p.2 ++ q.1, q.2)

/-- `tokenize`: scan a string into tokens, starting outside a quote with an
empty pending word of type `TOKEN_KEYWORD`. -/
def tokenize (data : String) : List Token :=
  (tokenizeAux data.data ⟨false, .KEYWORD, ""⟩).1

/-- Final tokenizer state after scanning a whole string (used to talk about
the pending word at end of input). -/
def tokenizeEndState (data : String) : TState :=
  (tokenizeAux data.data ⟨false, .KEYWORD, ""⟩).2

/-! ## The tree model

A Python `Node` object is an entry of a heap: `parent` is an optional heap
index, `keyword` a string, `child` the ordered mixed sequence of children,
each a node reference (another heap index) or an attribute string.  `BTree`
is the pure tree shape of such an object graph (keyword plus ordered mixed
children, parent links dropped); it is what "structural equality" of the
specification compares. -/

/-- A child of a node in the heap: a reference to another node or an
attribute string.  Equality on `ChildRef` matches Python `==` on the mixed
`child` list: object identity for nodes, value equality for strings. -/
inductive ChildRef where
  | node (i : Nat)
  | attr (s : String)
deriving DecidableEq, Repr

/-- The fields of a Python `Node` object. -/
structure NodeData where
  parent : Option Nat
  keyword : String
  child : List ChildRef
deriving DecidableEq, Repr

/-- The object heap: node `i` is `h[i]`. -/
abbrev Heap := List NodeData

/-- Replace the entry at an index by applying `f` (identity out of range;
the parser only ever touches live indices). -/
def modifyAt : Heap → Nat → (NodeData → NodeData) → Heap
  | [], _, _ => []
  | x :: xs, 0, f => f x :: xs
  | x :: xs, n + 1, f => x :: modifyAt xs n f

/-- `Node.add`: appends a new child to the mixed sequence.  (It does not
touch any `parent` field.) -/
def NodeData.add (nd : NodeData) (c : ChildRef) : NodeData :=
  { nd with child := nd.child ++ [c] }

/-- `node.add(child)` seen at the heap level: node `i` of heap `h` gets the
new child appended. -/
def Heap.addChild (h : Heap) (i : Nat) (c : ChildRef) : Heap :=
  modifyAt h i (fun nd => nd.add c)

/-- The failure of `Node.remove` / `Node.replace` when the requested child
is absent (the `assert child in self.child`); the specification names it
`NotFound`. -/
inductive NotFound where
  | notFound
deriving DecidableEq, Repr

/-- Remove the first occurrence of `c` (Python `list.remove`). -/
def removeFirst : List ChildRef → ChildRef → List ChildRef
  | [], _ => []
  | x :: xs, c => if x = c then xs else x :: removeFirst xs c

/-- Index of the first occurrence of `c` (Python `list.index`); 0 when
absent, but it is only used after a membership check. -/
def idxOfFirst : List ChildRef → ChildRef → Nat
  | [], _ => 0
  | x :: xs, c => if x = c then 0 else idxOfFirst xs c + 1

/-- `Node.remove`: requires the child to be present, then removes its first
occurrence from the mixed sequence. -/
def NodeData.remove (nd : NodeData) (c : ChildRef) : Except NotFound NodeData :=
  if c ∈ nd.child then .ok { nd with child := removeFirst nd.child c }
  else .error .notFound

/-- `Node.replace`: requires `c` to be present, then overwrites the slot of
its first occurrence with `c'`. -/
def NodeData.replace (nd : NodeData) (c c' : ChildRef) : Except NotFound NodeData :=
  if c ∈ nd.child then .ok { nd with child := nd.child.set (idxOfFirst nd.child c) c' }
  else .error .notFound

/-- Pure tree shape of a node (or of an attribute child): a keyword with
the ordered mixed children, or an attribute leaf. -/
inductive BTree where
  | node (keyword : String) (kids : List BTree)
  | attr (s : String)
deriving Repr

/-! ## Parser -/

/-- The single failure mode of the parser; the specification's name for the
parser's fail-fast exceptions (second root, attribute with no enclosing
node, unmatched close, leftover open contexts). -/
inductive ParseError where
  | malformedDocument
deriving DecidableEq, Repr

/-- Parser state: the heap of allocated nodes, the `root` and `node`
references and the explicit context `stack` (top first). -/
structure PState where
  heap : Heap
  root : Option Nat
  node : Option Nat
  stack : List (Option Nat)
deriving DecidableEq, Repr

/-- One token of the parser loop.  `OPEN` is skipped; `KEYWORD` pushes the
current node, allocates a new node with the current node as parent and
appends it to the parent's children (failing when a second root appears);
`WORD` appends an attribute to the current node (failing when there is
none); `CLOSE` pops the stack (failing when it is empty). -/
def pstep (s : PState) (t : Token) : Except ParseError PState :=
  match t.type with
  | .OPEN => .ok s
  | .KEYWORD =>
    let stack := s.node :: s.stack
    let idx := s.heap.length
    let nd : NodeData := ⟨s.node, t.data, []⟩
    match s.node with
    | some p =>
      .ok ⟨(modifyAt s.heap p fun d => { d with child := d.child ++ [.node idx] }) ++ [nd],
        s.root, some idx, stack⟩
    | none =>
      match s.root with
      | some _ => .error .malformedDocument
      | none => .ok ⟨s.heap ++ [nd], some idx, some idx, stack⟩
  | .WORD =>
    match s.node with
    | some p =>
      .ok ⟨modifyAt s.heap p fun d => { d with child := d.child ++ [.attr t.data] },
        s.root, s.node, s.stack⟩
    | none => .error .malformedDocument
  | .CLOSE =>
    match s.stack with
    | top :: rest => .ok ⟨s.heap, s.root, top, rest⟩
    | [] => .error .malformedDocument

/-- Run the parser over a token list: fold the transitions from the empty
state, then require the stack to be empty.  The result is the heap together
with the root reference (`none` for an empty document). -/
def parseTokens (ts : List Token) : Except ParseError (Heap × Option Nat) :=
  match ts.foldlM pstep ⟨[], none, none, []⟩ with
  | .error e => .error e
  | .ok s => if s.stack.isEmpty then .ok (s.heap, s.root) else .error .malformedDocument

/-- `parse`: tokenize, then build the tree. -/
def parse (data : String) : Except ParseError (Heap × Option Nat) :=
  parseTokens (tokenize data)

/-- Read the pure tree rooted at index `i` out of a heap, with fuel
bounding the recursion depth. -/
def extractB (h : Heap) : Nat → Nat → Option BTree
  | 0, _ => none
  | fuel + 1, i =>
    match h[i]? with
    | none => none
    | some nd =>
      match nd.child.foldr (fun c acc =>
          match acc with
          | none => none
          | some ts =>
            match c with
            | .attr s => some (BTree.attr s :: ts)
            | .node j =>
              match extractB h fuel j with
              | some t => some (t :: ts)
              | none => none) (some []) with
      | some ks => some (.node nd.keyword ks)
      | none => none

/-- Read the pure tree rooted at `i` out of heap `h`.  On heaps built by
`parse` the depth is below `h.length`, so the fuel suffices. -/
def extractTree (h : Heap) (i : Nat) : Option BTree :=
  extractB h (h.length + 1) i

/-! ## Serializer -/

/-- The quoting condition of `dump`: the word contains `(`, `)`, a space,
or is empty (`"(" in word or ")" in word or " " in word or len(word) == 0`). -/
def needsQuote (w : String) : Bool :=
  w.data.contains '(' || w.data.contains ')' || w.data.contains ' ' || w == ""

/-- Rendering of a keyword or attribute string by `dump`: wrapped in double
quotes when `needsQuote`, bare otherwise. -/
def renderWord (w : String) : String :=
  if needsQuote w then "\"" ++ w ++ "\"" else w

mutual
/-- The `node_to_tokens` traversal of `dump`: pre-order emission of `OPEN`,
`KEYWORD`, a `WORD` per attribute, and `CLOSE`. -/
def nodeToTokens : BTree → List Token
  | .attr s => [⟨.WORD, s⟩]
  | .node kw kids => ⟨.OPEN, "("⟩ :: ⟨.KEYWORD, kw⟩ :: kidsToTokens kids ++ [⟨.CLOSE, ")"⟩]
def kidsToTokens : List BTree → List Token
  | [] => []
  | k :: ks => nodeToTokens k ++ kidsToTokens ks
end

/-- Indentation: `" " * indent` (empty for a negative count, as in
Python). -/
def spaces (i : Int) : String :=
  String.mk (List.replicate i.toNat ' ')

/-- State of the token-to-text rendering loop of `dump`. -/
structure RState where
  string : String
  indent : Int
  newline : Bool
deriving Repr

/-- One token of the rendering loop of `dump`: `OPEN` emits a newline,
indentation and `(`; `KEYWORD` the (possibly quoted) word, increasing the
indent; `WORD` a space and the (possibly quoted) word; `CLOSE` decreases
the indent and closes on a new line exactly when the `newline` flag is set,
then sets the flag. -/
def renderTok (st : RState) (t : Token) : RState :=
  match t.type with
  | .OPEN => ⟨st.string ++ "\n" ++ spaces st.indent ++ "(", st.indent, false⟩
  | .KEYWORD => ⟨st.string ++ renderWord t.data, st.indent + 2, st.newline⟩
  | .WORD => ⟨st.string ++ " " ++ renderWord t.data, st.indent, st.newline⟩
  | .CLOSE =>
    let ind := st.indent - 2
    if st.newline then ⟨st.string ++ "\n" ++ spaces ind ++ ")", ind, true⟩
    else ⟨st.string ++ ")", ind, true⟩

/-- Render a token list to text (second half of `dump`). -/
def render (ts : List Token) : String :=
  (ts.foldl renderTok ⟨"", 0, false⟩).string

/-- `dump`: convert a tree to tokens, then render them. -/
def dump (tree : BTree) : String :=
  render (nodeToTokens tree)

mutual
/-- All keyword and attribute string values occurring in a tree. -/
def treeVals : BTree → List String
  | .attr s => [s]
  | .node kw kids => kw :: kidsVals kids
def kidsVals : List BTree → List String
  | [] => []
  | k :: ks => treeVals k ++ kidsVals ks
end

/-! ## Heap access lemmas -/

theorem modifyAt_length (h : Heap) (i : Nat) (f : NodeData → NodeData) :
    (modifyAt h i f).length = h.length := by
  induction h generalizing i with
  | nil => rfl
  | cons x xs ih =>
    cases i with
    | zero => rfl
    | succ n => simpa [modifyAt] using ih n

theorem modifyAt_get_self (h : Heap) (i : Nat) (f : NodeData → NodeData)
    (nd : NodeData) (hget : h[i]? = some nd) :
    (modifyAt h i f)[i]? = some (f nd) := by
  induction h generalizing i with
  | nil => simp at hget
  | cons x xs ih =>
    cases i with
    | zero => simp_all [modifyAt]
    | succ n =>
      simp only [List.getElem?_cons_succ] at hget
      simpa [modifyAt] using ih n hget

theorem modifyAt_get_ne (h : Heap) (i j : Nat) (f : NodeData → NodeData)
    (hne : j ≠ i) : (modifyAt h i f)[j]? = h[j]? := by
  induction h generalizing i j with
  | nil => rfl
  | cons x xs ih =>
    cases i with
    | zero =>
      cases j with
      | zero => exact absurd rfl hne
      | succ m => simp [modifyAt]
    | succ n =>
      cases j with
      | zero => simp [modifyAt]
      | succ m => simpa [modifyAt] using ih n m (by omega)

/-! ## Claim C6: `Node.add` -/

/-- C6 (corrected): `N.add(c)` appends `c` as the last element of `N`'s
mixed child sequence and leaves every existing child unchanged; it leaves
the `parent` field of every node of the heap — in particular of `c` when
`c` is a node — unchanged (it does not set `c`'s parent to `N`). -/
theorem addChild_spec (h : Heap) (i : Nat) (nd : NodeData) (c : ChildRef)
    (hget : h[i]? = some nd) :
    (Heap.addChild h i c)[i]? = some ⟨nd.parent, nd.keyword, nd.child ++ [c]⟩ ∧
    (∀ j : Nat, j ≠ i → (Heap.addChild h i c)[j]? = h[j]?) ∧
    (∀ (j : Nat) (ndj : NodeData), (Heap.addChild h i c)[j]? = some ndj →
      ∃ nd0 : NodeData, h[j]? = some nd0 ∧ ndj.parent = nd0.parent) := by
  refine ⟨modifyAt_get_self h i _ nd hget, fun j hj => modifyAt_get_ne h i j _ hj, ?_⟩
  intro j ndj hj
  simp only [Heap.addChild] at hj
  by_cases hji : j = i
  · subst hji
    rw [modifyAt_get_self h j _ nd hget] at hj
    exact ⟨nd, hget, by cases hj; rfl⟩
  · rw [modifyAt_get_ne h i j _ hji] at hj
    exact ⟨ndj, hj, rfl⟩

/-- Witness for C6's theorem at a concrete heap. -/
theorem addChild_spec_witness :
    ([⟨none, "a", [.attr "x"]⟩, ⟨none, "b", []⟩] : Heap)[0]? = some ⟨none, "a", [.attr "x"]⟩ ∧
    (Heap.addChild [⟨none, "a", [.attr "x"]⟩, ⟨none, "b", []⟩] 0 (.node 1))[0]? =
      some ⟨none, "a", [.attr "x", .node 1]⟩ := by
  refine ⟨by decide, ?_⟩
  exact (addChild_spec [⟨none, "a", [.attr "x"]⟩, ⟨none, "b", []⟩] 0
    ⟨none, "a", [.attr "x"]⟩ (.node 1) (by decide)).1

/-- Counterexample for C6 as stated: adding node `1` as a child of node `0`
does not set node `1`'s parent to `0`; it stays `none`. -/
theorem add_no_parent_counterexample :
    (Heap.addChild [⟨none, "a", []⟩, ⟨none, "b", []⟩] 0 (.node 1))[1]? =
      some ⟨none, "b", []⟩ ∧ (none : Option Nat) ≠ some 0 := by
  exact ⟨by decide, by decide⟩

/-! ## Claim C7: `Node.remove` and `Node.replace` -/

theorem firstOcc_of_mem (l : List ChildRef) (c : ChildRef) (hm : c ∈ l) :
    ∃ l₁ l₂, l = l₁ ++ c :: l₂ ∧ c ∉ l₁ ∧
      removeFirst l c = l₁ ++ l₂ ∧ idxOfFirst l c = l₁.length := by
  induction l with
  | nil => simp at hm
  | cons x xs ih =>
    by_cases hx : x = c
    · subst hx
      exact ⟨[], xs, rfl, by simp, by simp [removeFirst], by simp [idxOfFirst]⟩
    · have hm' : c ∈ xs := by
        rcases List.mem_cons.mp hm with h | h
        · exact absurd h.symm hx
        · exact h
      obtain ⟨l₁, l₂, he, hn, hr, hi⟩ := ih hm'
      refine ⟨x :: l₁, l₂, by simp [he], ?_,
        by simp [removeFirst, hx, hr], by simp [idxOfFirst, hx, hi]⟩
      intro hmem
      rcases List.mem_cons.mp hmem with h | h
      · exact hx h.symm
      · exact hn h

theorem set_firstOcc (l₁ l₂ : List ChildRef) (c c' : ChildRef) :
    (l₁ ++ c :: l₂).set l₁.length c' = l₁ ++ c' :: l₂ := by
  induction l₁ with
  | nil => rfl
  | cons x xs ih => simp [List.set, ih]

/-- C7 (confirmed): `remove` fails with `NotFound` exactly when the child is
absent, and otherwise removes exactly the first occurrence; `replace` fails
with `NotFound` exactly when the old child is absent, and otherwise
substitutes the new child at the position of the first occurrence, leaving
every other child (and hence the sequence length) unchanged. -/
theorem remove_replace_spec (nd : NodeData) (c c' : ChildRef) :
    ((nd.remove c = .error .notFound) ↔ c ∉ nd.child) ∧
    (c ∈ nd.child → ∃ l₁ l₂, nd.child = l₁ ++ c :: l₂ ∧ c ∉ l₁ ∧
      nd.remove c = .ok ⟨nd.parent, nd.keyword, l₁ ++ l₂⟩) ∧
    ((nd.replace c c' = .error .notFound) ↔ c ∉ nd.child) ∧
    (c ∈ nd.child → ∃ l₁ l₂, nd.child = l₁ ++ c :: l₂ ∧ c ∉ l₁ ∧
      nd.replace c c' = .ok ⟨nd.parent, nd.keyword, l₁ ++ c' :: l₂⟩) := by
  refine ⟨?_, ?_, ?_, ?_⟩
  · constructor
    · intro he hm
      simp [NodeData.remove, hm] at he
    · intro hm
      simp [NodeData.remove, hm]
  · intro hm
    obtain ⟨l₁, l₂, he, hn, hr, _⟩ := firstOcc_of_mem nd.child c hm
    exact ⟨l₁, l₂, he, hn, by simp [NodeData.remove, hm, hr]⟩
  · constructor
    · intro he hm
      simp [NodeData.replace, hm] at he
    · intro hm
      simp [NodeData.replace, hm]
  · intro hm
    obtain ⟨l₁, l₂, he, hn, _, hi⟩ := firstOcc_of_mem nd.child c hm
    refine ⟨l₁, l₂, he, hn, ?_⟩
    simp only [NodeData.replace, hm, if_pos]
    rw [hi, he, set_firstOcc]

/-- Witness for C7's theorem: a concrete node with a duplicated attribute. -/
theorem remove_replace_spec_witness :
    ((⟨none, "k", [.attr "b", .attr "a", .attr "a"]⟩ : NodeData).remove (.attr "x") =
      .error .notFound) ∧
    (∃ l₁ l₂, ([.attr "b", .attr "a", .attr "a"] : List ChildRef) = l₁ ++ .attr "a" :: l₂ ∧
      ChildRef.attr "a" ∉ l₁ ∧
      (⟨none, "k", [.attr "b", .attr "a", .attr "a"]⟩ : NodeData).replace (.attr "a") (.attr "z") =
        .ok ⟨none, "k", l₁ ++ .attr "z" :: l₂⟩) := by
  constructor
  · exact (remove_replace_spec ⟨none, "k", [.attr "b", .attr "a", .attr "a"]⟩
      (.attr "x") (.attr "z")).1.mpr (by decide)
  · exact (remove_replace_spec ⟨none, "k", [.attr "b", .attr "a", .attr "a"]⟩
      (.attr "a") (.attr "z")).2.2.2 (by decide)

/-! ## Tokenizer scan lemmas -/

/-- A character that the tokenizer simply appends to the pending word:
not a bracket, not a quote, not whitespace. -/
def plainChar (c : Char) : Bool :=
  !(c == '(') && !(c == ')') && !(c == '"') && !isPySpace c

theorem isPySpace_not_special (c : Char) (h : isPySpace c = true) :
    c ≠ '"' ∧ c ≠ '(' ∧ c ≠ ')' := by
  refine ⟨?_, ?_, ?_⟩ <;> intro hc <;> subst hc <;> exact absurd h (by decide)

theorem tokenizeAux_append (l₁ l₂ : List Char) (s : TState) :
    tokenizeAux (l₁ ++ l₂) s =
      ((tokenizeAux l₁ s).1 ++ (tokenizeAux l₂ (tokenizeAux l₁ s).2).1,
        (tokenizeAux l₂ (tokenizeAux l₁ s).2).2) := by
  induction l₁ generalizing s with
  | nil => simp [tokenizeAux]
  | cons c cs ih => simp [tokenizeAux, ih]

theorem tokStep_space (st : TState) (c : Char) (hq : st.quote = false)
    (hc : isPySpace c = true) :
    tokStep st c =
      if st.word = "" then (st, [])
      else (⟨false, .WORD, ""⟩, [⟨st.word_token, st.word⟩]) := by
  obtain ⟨h1, h2, h3⟩ := isPySpace_not_special c hc
  by_cases hw : st.word = "" <;>
    simp [tokStep, hq, h1, h2, h3, hc, hw]

theorem scan_spaces (cs : List Char) (h : ∀ c ∈ cs, isPySpace c = true)
    (m : TokenType) : tokenizeAux cs ⟨false, m, ""⟩ = ([], ⟨false, m, ""⟩) := by
  induction cs with
  | nil => rfl
  | cons c cs ih =>
    have hstep := tokStep_space ⟨false, m, ""⟩ c rfl (h c (by simp))
    simp only [if_pos rfl] at hstep
    simp [tokenizeAux, hstep, ih (fun c hc => h c (by simp [hc]))]

theorem scan_plain (cs : List Char) (h : ∀ c ∈ cs, plainChar c = true) :
    ∀ (m : TokenType) (w : String),
      tokenizeAux cs ⟨false, m, w⟩ = ([], ⟨false, m, String.mk (w.data ++ cs)⟩) := by
  induction cs with
  | nil =>
    intro m w
    simp [tokenizeAux]
  | cons c cs ih =>
    intro m w
    have hc := h c (by simp)
    simp only [plainChar, Bool.and_eq_true, Bool.not_eq_true', beq_eq_false_iff_ne,
      ne_eq] at hc
    obtain ⟨⟨⟨h1, h2⟩, h3⟩, h4⟩ := hc
    have hstep : tokStep ⟨false, m, w⟩ c = (⟨false, m, w.push c⟩, []) := by
      simp [tokStep, h1, h2, h3, h4]
    simp [tokenizeAux, hstep, ih (fun c hc => h c (by simp [hc])), String.data_push]

theorem scan_inquote (cs : List Char) (h : ∀ c ∈ cs, ¬c = '"') :
    ∀ (m : TokenType) (w : String),
      tokenizeAux cs ⟨true, m, w⟩ = ([], ⟨true, m, String.mk (w.data ++ cs)⟩) := by
  induction cs with
  | nil =>
    intro m w
    simp [tokenizeAux]
  | cons c cs ih =>
    intro m w
    have hc := h c (by simp)
    have hstep : tokStep ⟨true, m, w⟩ c = (⟨true, m, w.push c⟩, []) := by
      simp [tokStep, hc]
    simp [tokenizeAux, hstep, ih (fun c hc => h c (by simp [hc])), String.data_push]

theorem scan_quoted (cs : List Char) (h : ∀ c ∈ cs, ¬c = '"') (m : TokenType) :
    tokenizeAux ('"' :: (cs ++ ['"'])) ⟨false, m, ""⟩ =
      ([⟨m, String.mk cs⟩], ⟨false, .WORD, ""⟩) := by
  have hstep : tokStep ⟨false, m, ""⟩ '"' = (⟨true, m, ""⟩, []) := by
    simp [tokStep]
  have hinner := scan_inquote cs h m ""
  have hclose : tokStep ⟨true, m, String.mk cs⟩ '"' =
      (⟨false, .WORD, ""⟩, [⟨m, String.mk cs⟩]) := by
    simp [tokStep]
  simp [tokenizeAux, hstep, tokenizeAux_append, hinner, hclose]

/-! ## Claim C4: end of input and the pending word -/

/-- Counterexample for C4 as stated: the scan of `"ab"` ends outside
quoting with the non-empty pending word `"ab"`, yet `tokenize "ab"` emits
no token at all — end of input discards the pending word instead of
flushing it. -/
theorem tokenize_end_counterexample :
    tokenizeEndState "ab" = ⟨false, .KEYWORD, "ab"⟩ ∧
    tokenize "ab" = [] ∧ ([] : List Token) ≠ [⟨.KEYWORD, "ab"⟩] := by
  refine ⟨by decide, by decide, by decide⟩

/-- C4 (amended): end of input does not flush the pending word — it is
discarded.  Concretely, appending a non-empty word `w` of plain characters
to an input whose scan ends outside quoting with an empty buffer leaves the
emitted token list unchanged, while the final pending buffer is exactly
`w`. -/
theorem tokenize_drops_pending (s w : String)
    (hq : (tokenizeEndState s).quote = false)
    (hw : (tokenizeEndState s).word = "")
    (hplain : ∀ c ∈ w.data, plainChar c = true) :
    tokenize (s ++ w) = tokenize s ∧ (tokenizeEndState (s ++ w)).word = w := by
  have hdata : (s ++ w).data = s.data ++ w.data := String.data_append s w
  have hend : tokenizeEndState s = ⟨false, (tokenizeEndState s).word_token, ""⟩ := by
    cases he : tokenizeEndState s
    rw [he] at hq hw
    simp_all
  constructor
  · rw [tokenize, tokenize, hdata, tokenizeAux_append]
    rw [show (tokenizeAux s.data ⟨false, .KEYWORD, ""⟩).2 = tokenizeEndState s from rfl,
      hend, scan_plain w.data hplain]
    simp
  · rw [tokenizeEndState, hdata, tokenizeAux_append]
    rw [show (tokenizeAux s.data ⟨false, .KEYWORD, ""⟩).2 = tokenizeEndState s from rfl,
      hend, scan_plain w.data hplain]
    cases w
    rfl

/-- Witness for C4's amended theorem at `s = "(a "` and `w = "bc"`. -/
theorem tokenize_drops_pending_witness :
    (tokenizeEndState "(a ").quote = false ∧ (tokenizeEndState "(a ").word = "" ∧
    tokenize ("(a " ++ "bc") = tokenize "(a " ∧
    (tokenizeEndState ("(a " ++ "bc")).word = "bc" := by
  refine ⟨by decide, by decide, ?_⟩
  exact tokenize_drops_pending "(a " "bc" (by decide) (by decide) (by decide)

/-! ## Claim C5: whitespace handling -/

/-- Counterexample for C5 as stated: in `"( a)"` the whitespace follows the
`(` with no pending word; the mode is not reset, so the next word `"a"` is
still classified `KEYWORD`, not `WORD`. -/
theorem whitespace_mode_counterexample :
    tokenize "( a)" = [⟨.OPEN, "("⟩, ⟨.KEYWORD, "a"⟩, ⟨.CLOSE, ")"⟩] ∧
    TokenType.KEYWORD ≠ TokenType.WORD := by
  refine ⟨by decide, by decide⟩

/-- C5 (amended): outside quoting, a whitespace character flushes the
pending word as a token typed by the current mode and resets the mode to
`WORD` — but only when a word is pending; with an empty buffer the state
(mode included) is left unchanged.  Consecutive whitespace still produces
no extra tokens. -/
theorem tokStep_whitespace (st : TState) (c c₂ : Char) (hq : st.quote = false)
    (hc : isPySpace c = true) (hc₂ : isPySpace c₂ = true) :
    (st.word ≠ "" → tokStep st c = (⟨false, .WORD, ""⟩, [⟨st.word_token, st.word⟩])) ∧
    (st.word = "" → tokStep st c = (st, [])) ∧
    (tokStep (tokStep st c).1 c₂).2 = [] := by
  have hs := tokStep_space st c hq hc
  refine ⟨fun hw => by simp [hs, hw], fun hw => by simp [hs, hw], ?_⟩
  by_cases hw : st.word = ""
  · rw [hs, if_pos hw, tokStep_space st c₂ hq hc₂, if_pos hw]
  · rw [hs, if_neg hw]
    rw [tokStep_space ⟨false, .WORD, ""⟩ c₂ rfl hc₂]
    simp

/-- Witness for C5's amended theorem: a space after a pending word and a
space after an empty buffer. -/
theorem tokStep_whitespace_witness :
    ((⟨false, .KEYWORD, "a"⟩ : TState).word ≠ "" →
      tokStep ⟨false, .KEYWORD, "a"⟩ ' ' = (⟨false, .WORD, ""⟩, [⟨.KEYWORD, "a"⟩])) ∧
    ((⟨false, .KEYWORD, ""⟩ : TState).word = "" →
      tokStep ⟨false, .KEYWORD, ""⟩ ' ' = (⟨false, .KEYWORD, ""⟩, [])) := by
  constructor
  · exact (tokStep_whitespace ⟨false, .KEYWORD, "a"⟩ ' ' ' ' rfl (by decide) (by decide)).1
  · exact (tokStep_whitespace ⟨false, .KEYWORD, ""⟩ ' ' ' ' rfl (by decide) (by decide)).2.1

/-! ## Claim C9: inputs with no tokens -/

/-- C9 (confirmed): an input consisting only of whitespace (in particular
the empty string) yields no tokens, and any input yielding no tokens parses
successfully to no node at all (`none`) — no exception, no tree. -/
theorem parse_no_tokens (D : String) :
    ((∀ c ∈ D.data, isPySpace c = true) → tokenize D = []) ∧
    (tokenize D = [] → parse D = .ok ([], none)) := by
  constructor
  · intro h
    rw [tokenize, scan_spaces D.data h .KEYWORD]
  · intro h
    rw [parse, h]
    rfl

/-- Witness for C9's theorem at a whitespace-only input. -/
theorem parse_no_tokens_witness :
    tokenize " \t " = [] ∧ parse " \t " = .ok ([], none) := by
  have h1 := (parse_no_tokens " \t ").1 (by decide)
  exact ⟨h1, (parse_no_tokens " \t ").2 h1⟩

/-! ## Claim C3: parser failure conditions

An independent characterization of malformed token sequences, scanning with
a nesting depth `d` (one per open node context) and a flag `r` recording
whether a root keyword has been seen: a `KEYWORD` at depth 0 with `r` set
is a second root; a `WORD` at depth 0 has no enclosing node; a `CLOSE` at
depth 0 is unmatched; a non-zero final depth is a leftover open context. -/

def badAux : List Token → Nat → Bool → Bool
  | [], d, _ => decide (d ≠ 0)
  | t :: ts, d, r =>
    match t.type with
    | .OPEN => badAux ts d r
    | .KEYWORD => if d = 0 ∧ r = true then true else badAux ts (d + 1) true
    | .WORD => if d = 0 then true else badAux ts d r
    | .CLOSE => if d = 0 then true else badAux ts (d - 1) r

/-- A token sequence on which the parser must fail: it contains a second
root keyword, an attribute word with no enclosing node, an unmatched
`CLOSE`, or leaves open contexts at the end. -/
def malformedTokens (ts : List Token) : Bool := badAux ts 0 false

/-- The parser run from an arbitrary state (generalizing `parseTokens` for
the induction). -/
def runTokens (s : PState) (ts : List Token) : Except ParseError (Heap × Option Nat) :=
  match ts.foldlM pstep s with
  | .error e => .error e
  | .ok s' => if s'.stack.isEmpty then .ok (s'.heap, s'.root) else .error .malformedDocument

theorem parseTokens_eq_run (ts : List Token) :
    parseTokens ts = runTokens ⟨[], none, none, []⟩ ts := rfl

theorem runTokens_cons (s : PState) (t : Token) (ts : List Token) :
    runTokens s (t :: ts) =
      match pstep s t with
      | .error e => .error e
      | .ok s' => runTokens s' ts := by
  cases h : pstep s t with
  | error e =>
    have hf : List.foldlM pstep s (t :: ts) = Except.error e := by
      rw [List.foldlM_cons, h]
      rfl
    simp [runTokens, hf]
  | ok s' =>
    have hf : List.foldlM pstep s (t :: ts) = List.foldlM pstep s' ts := by
      rw [List.foldlM_cons, h]
      rfl
    simp [runTokens, hf]

/-- Only the bottom entry of the parser stack is `none` (it is the initial
`node` pushed when the root keyword is processed). -/
def stackOK : List (Option Nat) → Bool
  | [] => true
  | x :: rest => (x.isNone == rest.isEmpty) && stackOK rest

/-- The parser-state invariant tying a reachable state to the abstract
depth `d` and root flag `r` of `badAux`. -/
def PInv (s : PState) (d : Nat) (r : Bool) : Prop :=
  s.stack.length = d ∧ stackOK s.stack = true ∧
    s.node.isSome = !s.stack.isEmpty ∧ s.root.isSome = r ∧
    (s.stack.isEmpty = false → s.root.isSome = true)

theorem run_error_iff (ts : List Token) : ∀ (s : PState) (d : Nat) (r : Bool),
    PInv s d r →
    (runTokens s ts = .error .malformedDocument ↔ badAux ts d r = true) := by
  induction ts with
  | nil =>
    intro s d r hinv
    obtain ⟨hlen, _, _, _, _⟩ := hinv
    have hf : List.foldlM pstep s ([] : List Token) = Except.ok s := rfl
    by_cases hd : d = 0
    · subst hd
      have hst : s.stack = [] := List.length_eq_zero.mp hlen
      simp [runTokens, hf, hst, badAux]
    · have hst : s.stack ≠ [] := by
        intro h
        rw [h] at hlen
        exact hd hlen.symm
      simp [runTokens, hf, hst, badAux, hd]
  | cons t ts ih =>
    intro s d r hinv
    obtain ⟨hlen, hok, hnode, hroot, hrt⟩ := hinv
    rw [runTokens_cons]
    match htype : t.type with
    | .OPEN =>
      have : pstep s t = .ok s := by simp [pstep, htype]
      rw [this]
      simpa [badAux, htype] using ih s d r ⟨hlen, hok, hnode, hroot, hrt⟩
    | .KEYWORD =>
      cases hn : s.node with
      | some p =>
        have hne : s.stack.isEmpty = false := by
          rw [hn] at hnode
          cases hs : s.stack.isEmpty <;> simp [hs] at hnode ⊢
        have hd : d ≠ 0 := by
          cases hst : s.stack with
          | nil => rw [hst] at hne; simp at hne
          | cons x rest => rw [hst] at hlen; simp [← hlen]
        have hr : r = true := by rw [← hroot]; exact hrt hne
        have hstep : pstep s t = .ok ⟨(modifyAt s.heap p fun nd =>
            { nd with child := nd.child ++ [.node s.heap.length] }) ++
              [⟨s.node, t.data, []⟩], s.root, some s.heap.length, s.node :: s.stack⟩ := by
          simp [pstep, htype, hn]
        rw [hstep]
        have hroot' : s.root.isSome = true := by rw [hroot]; exact hr
        have hinv' : PInv ⟨(modifyAt s.heap p fun nd =>
            { nd with child := nd.child ++ [.node s.heap.length] }) ++
              [⟨s.node, t.data, []⟩], s.root, some s.heap.length, s.node :: s.stack⟩
            (d + 1) true := by
          refine ⟨by simp [hlen], ?_, by simp, hroot', fun _ => hroot'⟩
          simp [stackOK, hok, hn, hne]
        simpa [badAux, htype, hd] using ih _ (d + 1) true hinv'
      | none =>
        have hemp : s.stack.isEmpty = true := by
          rw [hn] at hnode
          cases hs : s.stack.isEmpty <;> simp [hs] at hnode ⊢
        have hd : d = 0 := by
          cases hst : s.stack with
          | nil => rw [hst] at hlen; exact hlen.symm
          | cons x rest => rw [hst] at hemp; simp at hemp
        cases hrv : s.root with
        | some q =>
          have hstep : pstep s t = .error .malformedDocument := by
            simp [pstep, htype, hn, hrv]
          have hr : r = true := by rw [← hroot, hrv]; rfl
          rw [hstep]
          simp [badAux, htype, hd, hr]
        | none =>
          have hr : r = false := by rw [← hroot, hrv]; rfl
          have hstep : pstep s t = .ok ⟨s.heap ++ [⟨s.node, t.data, []⟩],
              some s.heap.length, some s.heap.length, s.node :: s.stack⟩ := by
            simp [pstep, htype, hn, hrv]
          rw [hstep]
          have hst : s.stack = [] := by
            cases hst : s.stack with
            | nil => rfl
            | cons x rest => rw [hst] at hemp; simp at hemp
          have hinv' : PInv ⟨s.heap ++ [⟨s.node, t.data, []⟩],
              some s.heap.length, some s.heap.length, s.node :: s.stack⟩ (d + 1) true := by
            refine ⟨by simp [hlen], ?_, by simp, by simp, by simp⟩
            simp [stackOK, hok, hn, hst]
          simpa [badAux, htype, hd, hr] using ih _ (d + 1) true hinv'
    | .WORD =>
      cases hn : s.node with
      | some p =>
        have hne : s.stack.isEmpty = false := by
          rw [hn] at hnode
          cases hs : s.stack.isEmpty <;> simp [hs] at hnode ⊢
        have hd : d ≠ 0 := by
          cases hst : s.stack with
          | nil => rw [hst] at hne; simp at hne
          | cons x rest => rw [hst] at hlen; simp [← hlen]
        have hstep : pstep s t = .ok ⟨modifyAt s.heap p fun nd =>
            { nd with child := nd.child ++ [.attr t.data] }, s.root, s.node, s.stack⟩ := by
          simp [pstep, htype, hn]
        rw [hstep]
        have hinv' : PInv ⟨modifyAt s.heap p fun nd =>
            { nd with child := nd.child ++ [.attr t.data] }, s.root, s.node, s.stack⟩ d r :=
          ⟨hlen, hok, by rw [← hnode, hn], hroot, hrt⟩
        simpa [badAux, htype, hd] using ih _ d r hinv'
      | none =>
        have hemp : s.stack.isEmpty = true := by
          rw [hn] at hnode
          cases hs : s.stack.isEmpty <;> simp [hs] at hnode ⊢
        have hd : d = 0 := by
          cases hst : s.stack with
          | nil => rw [hst] at hlen; exact hlen.symm
          | cons x rest => rw [hst] at hemp; simp at hemp
        have hstep : pstep s t = .error .malformedDocument := by
          simp [pstep, htype, hn]
        rw [hstep]
        simp [badAux, htype, hd]
    | .CLOSE =>
      cases hst : s.stack with
      | nil =>
        have hd : d = 0 := by rw [hst] at hlen; exact hlen.symm
        have hstep : pstep s t = .error .malformedDocument := by
          simp [pstep, htype, hst]
        rw [hstep]
        simp [badAux, htype, hd]
      | cons top rest =>
        have hd : d = rest.length + 1 := by rw [hst] at hlen; simpa using hlen.symm
        have hstep : pstep s t = .ok ⟨s.heap, s.root, top, rest⟩ := by
          simp [pstep, htype, hst]
        rw [hstep]
        rw [hst] at hok
        simp only [stackOK, Bool.and_eq_true, beq_iff_eq] at hok
        have hinv' : PInv ⟨s.heap, s.root, top, rest⟩ (d - 1) r := by
          refine ⟨by simp [hd], hok.2, ?_, hroot, ?_⟩
          · cases top with
            | none =>
              have hrest : rest.isEmpty = true := by
                have := hok.1
                simpa using this.symm
              simp [hrest]
            | some v =>
              have hrest : rest.isEmpty = false := by
                have := hok.1
                simpa using this.symm
              simp [hrest]
          · intro _
            refine hrt ?_
            rw [hst]
            rfl
        simpa [badAux, htype, hd] using ih _ (d - 1) r hinv'

/-- C3 (confirmed): `parse` fails with `MalformedDocument` exactly when the
token sequence contains a second root keyword, an attribute word with no
enclosing node, a `CLOSE` with an empty context stack, or leftover open
contexts after the last token (the four alternatives folded into
`malformedTokens`); on failure the `Except` result carries no tree at all.
In particular both `"(a (b)"` and `"(a))"` fail this way. -/
theorem parse_error_iff :
    (∀ D : String, parse D = .error .malformedDocument ↔
      malformedTokens (tokenize D) = true) ∧
    parse "(a (b)" = .error .malformedDocument ∧
    parse "(a))" = .error .malformedDocument := by
  have hmain : ∀ D : String, parse D = .error .malformedDocument ↔
      malformedTokens (tokenize D) = true := by
    intro D
    rw [parse, parseTokens_eq_run, malformedTokens]
    exact run_error_iff (tokenize D) ⟨[], none, none, []⟩ 0 false
      ⟨rfl, rfl, rfl, rfl, by simp⟩
  exact ⟨hmain, (hmain "(a (b)").mpr (by decide), (hmain "(a))").mpr (by decide)⟩

/-! ## Claim C10: parent back-references after parsing -/

theorem lt_of_get_some {h : Heap} {i : Nat} {nd : NodeData}
    (hget : h[i]? = some nd) : i < h.length := by
  by_contra hc
  push_neg at hc
  rw [List.getElem?_eq_none hc] at hget
  cases hget

theorem get_append_new (h : Heap) (nd : NodeData) :
    (h ++ [nd])[h.length]? = some nd := by
  rw [List.getElem?_append_right (Nat.le_refl _)]
  simp

theorem get_append_at (l : List NodeData) (nd : NodeData) (n : Nat)
    (hn : l.length = n) : (l ++ [nd])[n]? = some nd := by
  subst hn
  exact get_append_new l nd

theorem get_append_old (h : Heap) (nd : NodeData) (i : Nat) (hi : i < h.length) :
    (h ++ [nd])[i]? = h[i]? := by
  rw [List.getElem?_append, if_pos hi]

/-- The global parent-consistency invariant of parser states: every node
reference in a child list points at a node whose parent is the referring
node; the root (if any) has no parent; `node` and all stack entries are
live references. -/
def HeapWF (s : PState) : Prop :=
  (∀ (p : Nat) (nd : NodeData), s.heap[p]? = some nd → ∀ c : Nat,
    ChildRef.node c ∈ nd.child →
      ∃ ndc : NodeData, s.heap[c]? = some ndc ∧ ndc.parent = some p) ∧
  (∀ r : Nat, s.root = some r →
    ∃ ndr : NodeData, s.heap[r]? = some ndr ∧ ndr.parent = none) ∧
  (∀ n : Nat, s.node = some n → n < s.heap.length) ∧
  (∀ x ∈ s.stack, ∀ n : Nat, x = some n → n < s.heap.length)

theorem pstep_preserves_wf (s : PState) (t : Token) (s' : PState)
    (hwf : HeapWF s) (hstep : pstep s t = .ok s') : HeapWF s' := by
  obtain ⟨hchild, hroot, hnode, hstack⟩ := hwf
  match htype : t.type with
  | .OPEN =>
    simp [pstep, htype] at hstep
    rw [← hstep]
    exact ⟨hchild, hroot, hnode, hstack⟩
  | .KEYWORD =>
    cases hn : s.node with
    | some p =>
      simp [pstep, htype, hn] at hstep
      cases hstep
      have hp : p < s.heap.length := hnode p hn
      obtain ⟨ndp, hndp⟩ : ∃ ndp, s.heap[p]? = some ndp :=
        ⟨s.heap[p], List.getElem?_eq_getElem hp⟩
      set L := s.heap.length with hL
      set h1 := modifyAt s.heap p fun d =>
        { d with child := d.child ++ [ChildRef.node L] } with hh1
      set nd1 : NodeData := ⟨some p, t.data, []⟩ with hnd1
      have hlen1 : h1.length = L := modifyAt_length _ _ _
      have hold : ∀ (q : Nat), q < L → q ≠ p → (h1 ++ [nd1])[q]? = s.heap[q]? := by
        intro q hql hqp
        rw [get_append_old _ _ _ (by omega), hh1, modifyAt_get_ne _ _ _ _ hqp]
      have hpnew : (h1 ++ [nd1])[p]? =
          some { ndp with child := ndp.child ++ [ChildRef.node L] } := by
        rw [get_append_old _ _ _ (by omega), hh1, modifyAt_get_self _ _ _ ndp hndp]
      have hfresh : (h1 ++ [nd1])[L]? = some nd1 := get_append_at _ _ _ hlen1
      have hlen' : (h1 ++ [nd1]).length = L + 1 := by
        rw [List.length_append, hlen1]
        rfl
      have hlift : ∀ (q : Nat) (ndq : NodeData), s.heap[q]? = some ndq →
          ∀ c : Nat, ChildRef.node c ∈ ndq.child →
          ∃ ndc : NodeData, (h1 ++ [nd1])[c]? = some ndc ∧ ndc.parent = some q := by
        intro q ndq hq c hc
        obtain ⟨ndc, hndc, hpar⟩ := hchild q ndq hq c hc
        have hc' : c < L := lt_of_get_some hndc
        by_cases hcp : c = p
        · subst hcp
          rw [hndc] at hndp
          cases hndp
          exact ⟨_, hpnew, hpar⟩
        · rw [← hold c hc' hcp] at hndc
          exact ⟨ndc, hndc, hpar⟩
      refine ⟨?_, ?_, ?_, ?_⟩
      · intro q ndq hq c hc
        simp only at hq
        by_cases hql : q = L
        · subst hql
          rw [hfresh] at hq
          cases hq
          simp [hnd1] at hc
        · have hqlt : q < L := by
            have := lt_of_get_some hq
            omega
          by_cases hqp : q = p
          · subst hqp
            rw [hpnew] at hq
            cases hq
            simp only at hc
            rcases List.mem_append.mp hc with hcm | hcm
            · exact hlift q ndp hndp c hcm
            · simp at hcm
              subst hcm
              exact ⟨nd1, hfresh, rfl⟩
          · rw [hold q hqlt hqp] at hq
            exact hlift q ndq hq c hc
      · intro rr hrr
        simp only at hrr
        obtain ⟨ndr, hndr, hpar⟩ := hroot rr hrr
        have hr' : rr < L := lt_of_get_some hndr
        by_cases hrp : rr = p
        · subst hrp
          rw [hndr] at hndp
          cases hndp
          exact ⟨_, hpnew, hpar⟩
        · rw [← hold rr hr' hrp] at hndr
          exact ⟨ndr, hndr, hpar⟩
      · intro n hsn
        have hsn2 : some L = some n := hsn
        injection hsn2 with hLn
        subst hLn
        show L < (h1 ++ [nd1]).length
        omega
      · intro x hx n hxn
        have hx2 : x ∈ some p :: s.stack := hx
        show n < (h1 ++ [nd1]).length
        rcases List.mem_cons.mp hx2 with hx1 | hx1
        · subst hx1
          injection hxn with hpn
          subst hpn
          omega
        · have := hstack x hx1 n hxn
          omega
    | none =>
      cases hrv : s.root with
      | some q => simp [pstep, htype, hn, hrv] at hstep
      | none =>
        simp [pstep, htype, hn, hrv] at hstep
        cases hstep
        set L := s.heap.length with hL
        have hold : ∀ (q : Nat), q < L →
            (s.heap ++ [(⟨none, t.data, []⟩ : NodeData)])[q]? = s.heap[q]? := by
          intro q hql
          exact get_append_old _ _ _ hql
        have hfresh : (s.heap ++ [(⟨none, t.data, []⟩ : NodeData)])[L]? =
            some ⟨none, t.data, []⟩ := get_append_at _ _ _ rfl
        refine ⟨?_, ?_, ?_, ?_⟩
        · intro q ndq hq c hc
          simp only at hq
          by_cases hql : q = L
          · subst hql
            rw [hfresh] at hq
            cases hq
            simp at hc
          · have hqlt : q < L := by
              have := lt_of_get_some hq
              simp only [List.length_append, List.length_cons, List.length_nil] at this
              omega
            rw [hold q hqlt] at hq
            obtain ⟨ndc, hndc, hpar⟩ := hchild q ndq hq c hc
            have hc' : c < L := lt_of_get_some hndc
            rw [← hold c hc'] at hndc
            exact ⟨ndc, hndc, hpar⟩
        · intro rr hrr
          simp only at hrr
          cases hrr
          exact ⟨_, hfresh, rfl⟩
        · intro n hsn
          have hsn2 : some L = some n := hsn
          injection hsn2 with hLn
          subst hLn
          show L < (s.heap ++ [(⟨none, t.data, []⟩ : NodeData)]).length
          rw [List.length_append]
          simp [hL]
        · intro x hx n hxn
          have hx2 : x ∈ none :: s.stack := hx
          show n < (s.heap ++ [(⟨none, t.data, []⟩ : NodeData)]).length
          rcases List.mem_cons.mp hx2 with hx1 | hx1
          · subst hx1
            cases hxn
          · have := hstack x hx1 n hxn
            rw [List.length_append]
            simp only [List.length_cons, List.length_nil]
            omega
  | .WORD =>
    cases hn : s.node with
    | some p =>
      simp [pstep, htype, hn] at hstep
      cases hstep
      have hp : p < s.heap.length := hnode p hn
      obtain ⟨ndp, hndp⟩ : ∃ ndp, s.heap[p]? = some ndp :=
        ⟨s.heap[p], List.getElem?_eq_getElem hp⟩
      set h1 := modifyAt s.heap p fun d =>
        { d with child := d.child ++ [ChildRef.attr t.data] } with hh1
      have hlen1 : h1.length = s.heap.length := modifyAt_length _ _ _
      have hold : ∀ (q : Nat), q ≠ p → h1[q]? = s.heap[q]? := by
        intro q hqp
        rw [hh1, modifyAt_get_ne _ _ _ _ hqp]
      have hpnew : h1[p]? = some { ndp with child := ndp.child ++ [ChildRef.attr t.data] } := by
        rw [hh1, modifyAt_get_self _ _ _ ndp hndp]
      have hlift : ∀ (q : Nat) (ndc : NodeData), s.heap[q]? = some ndc →
          ∃ ndc' : NodeData, h1[q]? = some ndc' ∧ ndc'.parent = ndc.parent := by
        intro q ndc hq
        by_cases hqp : q = p
        · subst hqp
          rw [hq] at hndp
          cases hndp
          exact ⟨_, hpnew, rfl⟩
        · rw [← hold q hqp] at hq
          exact ⟨ndc, hq, rfl⟩
      refine ⟨?_, ?_, ?_, ?_⟩
      · intro q ndq hq c hc
        simp only at hq
        have hbase : ∃ ndc, s.heap[c]? = some ndc ∧ ndc.parent = some q := by
          by_cases hqp : q = p
          · subst hqp
            rw [hpnew] at hq
            cases hq
            simp only at hc
            rcases List.mem_append.mp hc with hcm | hcm
            · exact hchild q ndp hndp c hcm
            · simp at hcm
          · rw [hold q hqp] at hq
            exact hchild q ndq hq c hc
        obtain ⟨ndc, hndc, hpar⟩ := hbase
        obtain ⟨ndc', hndc', hpar'⟩ := hlift c ndc hndc
        exact ⟨ndc', hndc', by rw [hpar', hpar]⟩
      · intro rr hrr
        simp only at hrr
        obtain ⟨ndr, hndr, hpar⟩ := hroot rr hrr
        obtain ⟨ndr', hndr', hpar'⟩ := hlift rr ndr hndr
        exact ⟨ndr', hndr', by rw [hpar', hpar]⟩
      · intro n hsn
        have hsn2 : some p = some n := hsn
        injection hsn2 with hpn
        subst hpn
        show p < h1.length
        rw [hlen1]
        exact hp
      · intro x hx n hxn
        have hx2 : x ∈ s.stack := hx
        show n < h1.length
        rw [hlen1]
        exact hstack x hx2 n hxn
    | none => simp [pstep, htype, hn] at hstep
  | .CLOSE =>
    cases hst : s.stack with
    | nil => simp [pstep, htype, hst] at hstep
    | cons top rest =>
      simp [pstep, htype, hst] at hstep
      cases hstep
      refine ⟨hchild, hroot, ?_, ?_⟩
      · intro n hsn
        exact hstack top (by rw [hst]; exact List.mem_cons_self _ _) n hsn
      · intro x hx n hxn
        exact hstack x (by rw [hst]; exact List.mem_cons_of_mem _ hx) n hxn

theorem foldl_preserves_wf (ts : List Token) : ∀ (s s' : PState),
    HeapWF s → ts.foldlM pstep s = .ok s' → HeapWF s' := by
  induction ts with
  | nil =>
    intro s s' hwf hrun
    cases hrun
    exact hwf
  | cons t ts ih =>
    intro s s' hwf hrun
    rw [List.foldlM_cons] at hrun
    cases hstep : pstep s t with
    | error e => rw [hstep] at hrun; cases hrun
    | ok s₁ =>
      rw [hstep] at hrun
      exact ih s₁ s' (pstep_preserves_wf s t s₁ hwf hstep) hrun

/-- Reachability from the root through node children. -/
inductive Reach (h : Heap) (r : Nat) : Nat → Prop where
  | refl : Reach h r r
  | step (i c : Nat) (nd : NodeData) : Reach h r i → h[i]? = some nd →
      ChildRef.node c ∈ nd.child → Reach h r c

/-- C10 (confirmed): when `parse` succeeds with a root node, the parent
back-references are consistent: the root's parent is `none`, and every node
child `c` of every node `i` reachable from the root has `c.parent = i`. -/
theorem parse_parent_consistent (D : String) (h : Heap) (r : Nat)
    (hp : parse D = .ok (h, some r)) :
    (∃ ndr : NodeData, h[r]? = some ndr ∧ ndr.parent = none) ∧
    (∀ i : Nat, Reach h r i → ∀ (nd : NodeData) (c : Nat), h[i]? = some nd →
      ChildRef.node c ∈ nd.child →
        ∃ ndc : NodeData, h[c]? = some ndc ∧ ndc.parent = some i) := by
  rw [parse, parseTokens] at hp
  cases hrun : (tokenize D).foldlM pstep ⟨[], none, none, []⟩ with
  | error e => rw [hrun] at hp; cases hp
  | ok s' =>
    rw [hrun] at hp
    have hinit : HeapWF ⟨[], none, none, []⟩ := by
      refine ⟨?_, ?_, ?_, ?_⟩
      · intro p nd hget c hc
        cases hget
      · intro rr hrr
        cases hrr
      · intro n hn
        cases hn
      · intro x hx
        cases hx
    have hwf : HeapWF s' :=
      foldl_preserves_wf (tokenize D) ⟨[], none, none, []⟩ s' hinit hrun
    have hp2 : (if s'.stack.isEmpty = true then Except.ok (s'.heap, s'.root)
        else Except.error ParseError.malformedDocument) = Except.ok (h, some r) := hp
    by_cases hse : s'.stack.isEmpty = true
    · rw [if_pos hse] at hp2
      simp only [Except.ok.injEq, Prod.mk.injEq] at hp2
      obtain ⟨hh, hr⟩ := hp2
      subst hh
      exact ⟨hwf.2.1 r hr, fun i _ nd c hget hc => hwf.1 i nd hget c hc⟩
    · rw [if_neg hse] at hp2
      cases hp2

/-- Witness for C10's theorem at the document `"(a (b) c)"`. -/
theorem parse_parent_consistent_witness :
    parse "(a (b) c)" =
      .ok ([⟨none, "a", [.node 1, .attr "c"]⟩, ⟨some 0, "b", []⟩], some 0) ∧
    (∃ ndr : NodeData,
      ([⟨none, "a", [.node 1, .attr "c"]⟩, ⟨some 0, "b", []⟩] : Heap)[0]? = some ndr ∧
      ndr.parent = none) := by
  have hp : parse "(a (b) c)" =
      .ok ([⟨none, "a", [.node 1, .attr "c"]⟩, ⟨some 0, "b", []⟩], some 0) := by rfl
  exact ⟨hp, (parse_parent_consistent "(a (b) c)" _ 0 hp).1⟩

/-! ## Render-state lemmas for the serializer -/

/-- Text appended by the rendering loop for a token list starting at the
given indent and newline flag. -/
def rendered (ts : List Token) (ind : Int) (nl : Bool) : String :=
  (ts.foldl renderTok ⟨"", ind, nl⟩).string

/-- Indent and newline flag after the rendering loop. -/
def rstate (ts : List Token) (ind : Int) (nl : Bool) : Int × Bool :=
  ((ts.foldl renderTok ⟨"", ind, nl⟩).indent, (ts.foldl renderTok ⟨"", ind, nl⟩).newline)

theorem renderTok_split (st : RState) (t : Token) :
    renderTok st t = ⟨st.string ++ (renderTok ⟨"", st.indent, st.newline⟩ t).string,
      (renderTok ⟨"", st.indent, st.newline⟩ t).indent,
      (renderTok ⟨"", st.indent, st.newline⟩ t).newline⟩ := by
  match htype : t.type with
  | .OPEN => simp [renderTok, htype, String.append_assoc, String.empty_append]
  | .KEYWORD => simp [renderTok, htype, String.append_assoc, String.empty_append]
  | .WORD => simp [renderTok, htype, String.append_assoc, String.empty_append]
  | .CLOSE =>
    by_cases hnl : st.newline = true <;>
      simp [renderTok, htype, hnl, String.append_assoc, String.empty_append]

theorem render_split (ts : List Token) : ∀ st : RState,
    ts.foldl renderTok st = ⟨st.string ++ rendered ts st.indent st.newline,
      (rstate ts st.indent st.newline).1, (rstate ts st.indent st.newline).2⟩ := by
  induction ts with
  | nil =>
    intro st
    simp [rendered, rstate, String.append_empty]
  | cons t ts ih =>
    intro st
    have h1 : List.foldl renderTok st (t :: ts) = List.foldl renderTok (renderTok st t) ts :=
      List.foldl_cons _ _
    have h2 : rendered (t :: ts) st.indent st.newline =
        (renderTok ⟨"", st.indent, st.newline⟩ t).string ++
          rendered ts (renderTok ⟨"", st.indent, st.newline⟩ t).indent
            (renderTok ⟨"", st.indent, st.newline⟩ t).newline := by
      rw [rendered, List.foldl_cons, ih]
    have h3 : rstate (t :: ts) st.indent st.newline =
        rstate ts (renderTok ⟨"", st.indent, st.newline⟩ t).indent
          (renderTok ⟨"", st.indent, st.newline⟩ t).newline := by
      rw [rstate, List.foldl_cons, ih]
    rw [h1, ih, renderTok_split st t, h2, h3]
    simp [String.append_assoc]

theorem rendered_append (l₁ l₂ : List Token) (ind : Int) (nl : Bool) :
    rendered (l₁ ++ l₂) ind nl =
      rendered l₁ ind nl ++
        rendered l₂ (rstate l₁ ind nl).1 (rstate l₁ ind nl).2 := by
  rw [rendered, List.foldl_append, render_split l₂, render_split l₁]
  simp [String.empty_append, rendered]

theorem rstate_append (l₁ l₂ : List Token) (ind : Int) (nl : Bool) :
    rstate (l₁ ++ l₂) ind nl =
      rstate l₂ (rstate l₁ ind nl).1 (rstate l₁ ind nl).2 := by
  rw [rstate, List.foldl_append, render_split l₂, render_split l₁]

/-- Does this child carry a nested node? -/
def isNodeB : BTree → Bool
  | .node _ _ => true
  | .attr _ => false

mutual
theorem rstate_nodeToTokens (t : BTree) : ∀ (ind : Int) (nl : Bool),
    rstate (nodeToTokens t) ind nl = (ind, nl || isNodeB t) := by
  match t with
  | .attr s =>
    intro ind nl
    simp [nodeToTokens, rstate, renderTok, isNodeB]
  | .node kw kids =>
    intro ind nl
    rw [show nodeToTokens (.node kw kids) =
      [(⟨.OPEN, "("⟩ : Token)] ++ [⟨.KEYWORD, kw⟩] ++ kidsToTokens kids ++
        [⟨.CLOSE, ")"⟩] by simp [nodeToTokens]]
    rw [rstate_append, rstate_append, rstate_append, rstate_kidsToTokens kids]
    simp only [rstate, List.foldl_cons, List.foldl_nil, renderTok, isNodeB,
      Prod.mk.injEq]
    constructor <;> split <;> simp [Int.add_sub_cancel]
theorem rstate_kidsToTokens (kids : List BTree) : ∀ (ind : Int) (nl : Bool),
    rstate (kidsToTokens kids) ind nl = (ind, nl || kids.any isNodeB) := by
  match kids with
  | [] =>
    intro ind nl
    simp [kidsToTokens, rstate]
  | k :: ks =>
    intro ind nl
    rw [show kidsToTokens (k :: ks) = nodeToTokens k ++ kidsToTokens ks by
      simp [kidsToTokens]]
    rw [rstate_append, rstate_nodeToTokens k, rstate_kidsToTokens ks]
    simp [Bool.or_assoc]
end

/-! ## Claim C8: compact leaf rendering -/

theorem renderWord_chars (w : String) (c : Char) (hc : c ∈ (renderWord w).data) :
    c ∈ w.data ∨ c = '"' := by
  rw [renderWord] at hc
  by_cases hq : needsQuote w
  · rw [if_pos hq] at hc
    rw [String.data_append, String.data_append] at hc
    rcases List.mem_append.mp hc with h | h
    · rcases List.mem_append.mp h with h | h
      · simp at h
        exact Or.inr h
      · exact Or.inl h
    · simp at h
      exact Or.inr h
  · rw [if_neg hq] at hc
    exact Or.inl hc

theorem mem_kidsVals (kids : List BTree) (k : BTree) (hk : k ∈ kids) :
    ∀ w ∈ treeVals k, w ∈ kidsVals kids := by
  induction kids with
  | nil => cases hk
  | cons k' ks ih =>
    intro w hw
    rw [show kidsVals (k' :: ks) = treeVals k' ++ kidsVals ks by simp [kidsVals]]
    rcases List.mem_cons.mp hk with h | h
    · subst h
      exact List.mem_append.mpr (Or.inl hw)
    · exact List.mem_append.mpr (Or.inr (ih h w hw))

theorem render_attr_run (ws : List BTree) :
    (∀ k ∈ ws, ∃ s : String, k = .attr s ∧ s ∈ kidsVals ws) →
    ∀ st : RState, ∃ x : String,
      List.foldl renderTok st (kidsToTokens ws) = ⟨st.string ++ x, st.indent, st.newline⟩ ∧
      ∀ c ∈ x.data, c = '"' ∨ c = ' ' ∨ ∃ s ∈ kidsVals ws, c ∈ s.data := by
  induction ws with
  | nil =>
    intro _ st
    refine ⟨"", ?_, ?_⟩
    · rw [show kidsToTokens ([] : List BTree) = [] by simp [kidsToTokens]]
      simp [String.append_empty]
    · intro c hc
      cases hc
  | cons k ks ih =>
    intro hattr st
    obtain ⟨s, hks, _⟩ := hattr k (List.mem_cons_self _ _)
    subst hks
    have hattr' : ∀ k ∈ ks, ∃ s : String, k = .attr s ∧ s ∈ kidsVals ks := by
      intro k' hk'
      obtain ⟨s', hs', _⟩ := hattr k' (List.mem_cons_of_mem _ hk')
      refine ⟨s', hs', ?_⟩
      subst hs'
      exact mem_kidsVals ks _ hk' s' (by simp [treeVals])
    rw [show kidsToTokens (BTree.attr s :: ks) =
      nodeToTokens (.attr s) ++ kidsToTokens ks by simp [kidsToTokens]]
    rw [show nodeToTokens (BTree.attr s) = [⟨.WORD, s⟩] by simp [nodeToTokens]]
    rw [List.foldl_append, List.foldl_cons, List.foldl_nil]
    have hstep : renderTok st ⟨.WORD, s⟩ =
        ⟨st.string ++ (" " ++ renderWord s), st.indent, st.newline⟩ := by
      show (⟨st.string ++ " " ++ renderWord s, st.indent, st.newline⟩ : RState) = _
      rw [String.append_assoc]
    rw [hstep]
    obtain ⟨x, hx, hxc⟩ := ih hattr' ⟨st.string ++ (" " ++ renderWord s), st.indent, st.newline⟩
    rw [hx]
    refine ⟨" " ++ renderWord s ++ x, ?_, ?_⟩
    · simp [String.append_assoc]
    · intro c hc
      rw [String.data_append, String.data_append] at hc
      have hsin : s ∈ kidsVals (BTree.attr s :: ks) := by simp [kidsVals, treeVals]
      rcases List.mem_append.mp hc with h | h
      · rcases List.mem_append.mp h with h | h
        · simp at h
          exact Or.inr (Or.inl h)
        · rcases renderWord_chars s c h with h' | h'
          · exact Or.inr (Or.inr ⟨s, hsin, h'⟩)
          · exact Or.inl h'
      · rcases hxc c h with h' | h' | ⟨s', hs', h'⟩
        · exact Or.inl h'
        · exact Or.inr (Or.inl h')
        · refine Or.inr (Or.inr ⟨s', ?_, h'⟩)
          rw [show kidsVals (BTree.attr s :: ks) =
            treeVals (.attr s) ++ kidsVals ks by simp [kidsVals]]
          exact List.mem_append.mpr (Or.inr hs')

/-- C8 (amended): a node all of whose children are attributes is rendered
by `dump` on a single line — after the leading newline that precedes every
`(`, no newline character occurs — provided no keyword/attribute value
itself contains a newline character; and a node with at least one nested
sub-node has its closing bracket placed on its own line at the decreased
(outermost) indent, i.e. its dump ends with `"\n)"`. -/
theorem dump_leaf_compact (kw : String) (kids : List BTree) :
    ((∀ k ∈ kids, ∃ s : String, k = BTree.attr s) →
      (∀ w ∈ treeVals (.node kw kids), ∀ c ∈ w.data, c ≠ '\n') →
      ∀ c ∈ (dump (.node kw kids)).data.tail, c ≠ '\n') ∧
    ((∃ k ∈ kids, isNodeB k = true) →
      ∃ s : String, dump (.node kw kids) = s ++ "\n)") := by
  constructor
  · intro hattr hval
    have hattr' : ∀ k ∈ kids, ∃ s : String, k = .attr s ∧ s ∈ kidsVals kids := by
      intro k hk
      obtain ⟨s, hs⟩ := hattr k hk
      refine ⟨s, hs, ?_⟩
      subst hs
      exact mem_kidsVals kids _ hk s (by simp [treeVals])
    obtain ⟨x, hx, hxc⟩ := render_attr_run kids hattr'
      ⟨"\n(" ++ renderWord kw, 0 + 2, false⟩
    have hrun : dump (.node kw kids) = (("\n(" ++ renderWord kw) ++ x) ++ ")" := by
      rw [dump, render]
      rw [show nodeToTokens (.node kw kids) =
        ⟨.OPEN, "("⟩ :: ⟨.KEYWORD, kw⟩ :: (kidsToTokens kids ++ [⟨.CLOSE, ")"⟩]) by
          simp [nodeToTokens]]
      rw [List.foldl_cons, List.foldl_cons, List.foldl_append]
      rw [show renderTok ⟨"", 0, false⟩ ⟨.OPEN, "("⟩ = ⟨"\n(", 0, false⟩ by
        show (⟨"" ++ "\n" ++ spaces 0 ++ "(", 0, false⟩ : RState) = _
        rw [show ("" ++ "\n" ++ spaces 0 ++ "(") = "\n(" by decide]]
      rw [show renderTok ⟨"\n(", 0, false⟩ ⟨.KEYWORD, kw⟩ =
        ⟨"\n(" ++ renderWord kw, 0 + 2, false⟩ from rfl]
      rw [hx]
      rw [List.foldl_cons, List.foldl_nil]
      rfl
    intro c hc hcn
    subst hcn
    rw [hrun] at hc
    have hdata : ((("\n(" ++ renderWord kw) ++ x) ++ ")").data =
        '\n' :: '(' :: ((renderWord kw).data ++ (x.data ++ [')'])) := by
      simp only [String.data_append]
      simp [List.append_assoc]
    rw [hdata] at hc
    simp only [List.tail_cons, List.mem_cons, List.mem_append] at hc
    rcases hc with h | h | h | h
    · cases h
    · rcases renderWord_chars kw '\n' h with h' | h'
      · exact hval kw (by simp [treeVals]) '\n' h' rfl
      · cases h'
    · rcases hxc '\n' h with h' | h' | ⟨s', hs', h'⟩
      · cases h'
      · cases h'
      · refine hval s' ?_ '\n' h' rfl
        rw [show treeVals (BTree.node kw kids) = kw :: kidsVals kids by simp [treeVals]]
        exact List.mem_cons_of_mem _ hs'
    · simp at h
  · intro hnode
    have hd : dump (.node kw kids) =
        rendered (([(⟨.OPEN, "("⟩ : Token)] ++ [⟨.KEYWORD, kw⟩] ++ kidsToTokens kids) ++
          [⟨.CLOSE, ")"⟩]) 0 false := by
      rw [dump, render, rendered]
      rw [show nodeToTokens (.node kw kids) =
        ([(⟨.OPEN, "("⟩ : Token)] ++ [⟨.KEYWORD, kw⟩] ++ kidsToTokens kids) ++
          [⟨.CLOSE, ")"⟩] by simp [nodeToTokens]]
    rw [hd, rendered_append]
    have hst : rstate ([(⟨.OPEN, "("⟩ : Token)] ++ [⟨.KEYWORD, kw⟩] ++ kidsToTokens kids)
        0 false = (2, true) := by
      rw [rstate_append, rstate_append, rstate_kidsToTokens kids]
      have hany : kids.any isNodeB = true := by
        obtain ⟨k, hk, hkn⟩ := hnode
        exact List.any_eq_true.mpr ⟨k, hk, hkn⟩
      simp [rstate, renderTok, hany]
    rw [hst]
    refine ⟨rendered ([(⟨.OPEN, "("⟩ : Token)] ++ [⟨.KEYWORD, kw⟩] ++ kidsToTokens kids)
      0 false, ?_⟩
    rw [show rendered [(⟨.CLOSE, ")"⟩ : Token)] 2 true = "\n)" by decide]

/-- Witness for C8's amended theorem: the leaf `(name "Foo")` renders on a
single line, and a node with a nested sub-node closes on its own line. -/
theorem dump_leaf_compact_witness :
    (∀ c ∈ (dump (.node "name" [.attr "Foo"])).data.tail, c ≠ '\n') ∧
    (∃ s : String, dump (.node "a" [.node "b" []]) = s ++ "\n)") := by
  constructor
  · refine (dump_leaf_compact "name" [.attr "Foo"]).1 ?_ ?_
    · intro k hk
      simp at hk
      exact ⟨"Foo", hk⟩
    · intro w hw
      rw [show treeVals (.node "name" [.attr "Foo"]) = ["name", "Foo"] by
        simp [treeVals, kidsVals]] at hw
      rcases List.mem_cons.mp hw with h | h
      · subst h
        decide
      · simp at h
        subst h
        decide
  · exact (dump_leaf_compact "a" [.node "b" []]).2 ⟨.node "b" [], by simp, rfl⟩

/-- Counterexample for C8 as stated: the attribute-only node `(k a\nb)`
whose attribute value contains a literal newline is not rendered on a
single line — the newline appears between its brackets. -/
theorem dump_newline_counterexample :
    dump (.node "k" [.attr "a\nb"]) = "\n(k a\nb)" ∧
    (∀ k ∈ [BTree.attr "a\nb"], ∃ s : String, k = BTree.attr s) ∧
    '\n' ∈ ("\n(k a\nb)").data.tail := by
  refine ⟨?_, ?_, by decide⟩
  · rw [dump, render, show nodeToTokens (.node "k" [.attr "a\nb"]) =
      [⟨.OPEN, "("⟩, ⟨.KEYWORD, "k"⟩, ⟨.WORD, "a\nb"⟩, ⟨.CLOSE, ")"⟩] by
        simp [nodeToTokens, kidsToTokens]]
    decide
  · intro k hk
    simp at hk
    exact ⟨"a\nb", hk⟩

/-! ## Parsing a serialized tree rebuilds it

`addEntry h p t` is the heap transformation parsing `nodeToTokens t`
performs under a current node `p`: an attribute is appended to `p`'s
children; a node allocates a fresh entry (at the old heap length, with
parent `p`), links it as a child of `p`, and recursively adds its own
children under the fresh index. -/

mutual
def addEntry (h : Heap) (p : Nat) : BTree → Heap
  | .attr s => modifyAt h p fun d => { d with child := d.child ++ [.attr s] }
  | .node kw kids =>
    addEntries ((modifyAt h p fun d => { d with child := d.child ++ [.node h.length] }) ++
      [⟨some p, kw, []⟩]) h.length kids
def addEntries (h : Heap) (p : Nat) : List BTree → Heap
  | [] => h
  | k :: ks => addEntries (addEntry h p k) p ks
end

theorem foldlM_pstep_append (l₁ l₂ : List Token) (s : PState) :
    List.foldlM pstep s (l₁ ++ l₂) =
      match List.foldlM pstep s l₁ with
      | .error e => .error e
      | .ok s' => List.foldlM pstep s' l₂ := by
  induction l₁ generalizing s with
  | nil => rfl
  | cons t ts ih =>
    rw [List.cons_append, List.foldlM_cons, List.foldlM_cons]
    cases hstep : pstep s t with
    | error e => rfl
    | ok s₁ => exact ih s₁

theorem foldlM_cons_ok {s s₁ : PState} {t : Token} (ts : List Token)
    (h : pstep s t = .ok s₁) :
    List.foldlM pstep s (t :: ts) = List.foldlM pstep s₁ ts := by
  rw [List.foldlM_cons, h]
  rfl

theorem foldlM_append_ok {s s₁ : PState} {l₁ : List Token} (l₂ : List Token)
    (h : List.foldlM pstep s l₁ = .ok s₁) :
    List.foldlM pstep s (l₁ ++ l₂) = List.foldlM pstep s₁ l₂ := by
  rw [foldlM_pstep_append, h]

mutual
theorem parse_entry (t : BTree) : ∀ (s : PState) (p : Nat), s.node = some p →
    List.foldlM pstep s (nodeToTokens t) =
      .ok ⟨addEntry s.heap p t, s.root, some p, s.stack⟩ := by
  match t with
  | .attr w =>
    intro s p hn
    rw [show nodeToTokens (.attr w) = [⟨.WORD, w⟩] by simp [nodeToTokens]]
    have hstep : pstep s ⟨.WORD, w⟩ =
        .ok ⟨modifyAt s.heap p fun d => { d with child := d.child ++ [.attr w] },
          s.root, some p, s.stack⟩ := by
      simp [pstep, hn]
    rw [show addEntry s.heap p (.attr w) = modifyAt s.heap p fun d =>
      { d with child := d.child ++ [.attr w] } by simp [addEntry]]
    exact (foldlM_cons_ok ([] : List Token) hstep).trans rfl
  | .node kw kids =>
    intro s p hn
    rw [show nodeToTokens (.node kw kids) =
      ⟨.OPEN, "("⟩ :: ⟨.KEYWORD, kw⟩ :: (kidsToTokens kids ++ [⟨.CLOSE, ")"⟩]) by
        simp [nodeToTokens]]
    have hopen : pstep s ⟨.OPEN, "("⟩ = .ok s := by simp [pstep]
    have hkw : pstep s ⟨.KEYWORD, kw⟩ =
        .ok ⟨(modifyAt s.heap p fun d =>
          { d with child := d.child ++ [.node s.heap.length] }) ++ [⟨some p, kw, []⟩],
          s.root, some s.heap.length, some p :: s.stack⟩ := by
      simp [pstep, hn]
    have hkids := parse_entry_kids kids ⟨(modifyAt s.heap p fun d =>
      { d with child := d.child ++ [.node s.heap.length] }) ++ [⟨some p, kw, []⟩],
      s.root, some s.heap.length, some p :: s.stack⟩ s.heap.length rfl
    have hclose : pstep ⟨addEntries ((modifyAt s.heap p fun d =>
        { d with child := d.child ++ [.node s.heap.length] }) ++ [⟨some p, kw, []⟩])
        s.heap.length kids, s.root, some s.heap.length, some p :: s.stack⟩
        ⟨.CLOSE, ")"⟩ =
        .ok ⟨addEntries ((modifyAt s.heap p fun d =>
          { d with child := d.child ++ [.node s.heap.length] }) ++ [⟨some p, kw, []⟩])
          s.heap.length kids, s.root, some p, s.stack⟩ := by
      simp [pstep]
    rw [show addEntry s.heap p (.node kw kids) =
      addEntries ((modifyAt s.heap p fun d =>
        { d with child := d.child ++ [.node s.heap.length] }) ++ [⟨some p, kw, []⟩])
        s.heap.length kids by simp [addEntry]]
    exact (foldlM_cons_ok _ hopen).trans ((foldlM_cons_ok _ hkw).trans
      ((foldlM_append_ok _ hkids).trans ((foldlM_cons_ok ([] : List Token) hclose).trans rfl)))
theorem parse_entry_kids (kids : List BTree) : ∀ (s : PState) (p : Nat),
    s.node = some p →
    List.foldlM pstep s (kidsToTokens kids) =
      .ok ⟨addEntries s.heap p kids, s.root, some p, s.stack⟩ := by
  match kids with
  | [] =>
    intro s p hn
    rw [show kidsToTokens ([] : List BTree) = [] by simp [kidsToTokens]]
    rw [show addEntries s.heap p ([] : List BTree) = s.heap by simp [addEntries]]
    rw [← hn]
    rfl
  | k :: ks =>
    intro s p hn
    rw [show kidsToTokens (k :: ks) = nodeToTokens k ++ kidsToTokens ks by
      simp [kidsToTokens]]
    have h1 := parse_entry k s p hn
    have h2 := parse_entry_kids ks ⟨addEntry s.heap p k, s.root, some p, s.stack⟩ p rfl
    rw [show addEntries s.heap p (k :: ks) = addEntries (addEntry s.heap p k) p ks by
      simp [addEntries]]
    exact (foldlM_append_ok _ h1).trans h2
end

/-- The heap built by parsing the serialization of `(.node kw kids)`. -/
def rootHeap (kw : String) (kids : List BTree) : Heap :=
  addEntries [⟨none, kw, []⟩] 0 kids

theorem parseTokens_build (kw : String) (kids : List BTree) :
    parseTokens (nodeToTokens (.node kw kids)) = .ok (rootHeap kw kids, some 0) := by
  have hfold : List.foldlM pstep ⟨[], none, none, []⟩
      (nodeToTokens (.node kw kids)) =
      .ok ⟨addEntries [⟨none, kw, []⟩] 0 kids, some 0, none, []⟩ := by
    rw [show nodeToTokens (.node kw kids) =
      ⟨.OPEN, "("⟩ :: ⟨.KEYWORD, kw⟩ :: (kidsToTokens kids ++ [⟨.CLOSE, ")"⟩]) by
        simp [nodeToTokens]]
    have hopen : pstep ⟨[], none, none, []⟩ ⟨.OPEN, "("⟩ =
        .ok ⟨[], none, none, []⟩ := by
      simp [pstep]
    have hkw : pstep ⟨[], none, none, []⟩ ⟨.KEYWORD, kw⟩ =
        .ok ⟨[⟨none, kw, []⟩], some 0, some 0, [none]⟩ := by
      simp [pstep]
    have hkids := parse_entry_kids kids ⟨[⟨none, kw, []⟩], some 0, some 0, [none]⟩ 0 rfl
    have hclose : pstep ⟨addEntries [⟨none, kw, []⟩] 0 kids, some 0, some 0, [none]⟩
        ⟨.CLOSE, ")"⟩ =
        .ok ⟨addEntries [⟨none, kw, []⟩] 0 kids, some 0, none, []⟩ := by
      simp [pstep]
    exact (foldlM_cons_ok _ hopen).trans ((foldlM_cons_ok _ hkw).trans
      ((foldlM_append_ok _ hkids).trans ((foldlM_cons_ok ([] : List Token) hclose).trans rfl)))
  rw [parseTokens, hfold]
  rfl

/-! ## Extraction of built heaps -/

mutual
/-- The pure tree `t` is laid out in heap `h` at index `i`: the entry holds
`t`'s keyword, and its child references realize `t`'s children in order,
all node references pointing strictly above `i`. -/
def Laid (h : Heap) (i : Nat) : BTree → Prop
  | .attr _ => False
  | .node kw kids => ∃ (par : Option Nat) (refs : List ChildRef),
      h[i]? = some ⟨par, kw, refs⟩ ∧ LaidKids h i refs kids
/-- The child references `refs` of the node at `i` realize the child trees
`ts` in order. -/
def LaidKids (h : Heap) (i : Nat) : List ChildRef → List BTree → Prop
  | [], [] => True
  | .attr s :: cs, .attr s' :: ts => s = s' ∧ LaidKids h i cs ts
  | .node j :: cs, t :: ts => i < j ∧ Laid h j t ∧ LaidKids h i cs ts
  | _, _ => False
end

mutual
theorem laid_frame (t : BTree) : ∀ (h h' : Heap) (i : Nat), Laid h i t →
    (∀ j : Nat, i ≤ j → ∀ nd : NodeData, h[j]? = some nd → h'[j]? = some nd) →
    Laid h' i t := by
  match t with
  | .attr s =>
    intro h h' i hl _
    exact absurd hl (by simp [Laid])
  | .node kw kids =>
    intro h h' i hl hframe
    obtain ⟨par, refs, hget, hk⟩ : ∃ par refs,
        h[i]? = some ⟨par, kw, refs⟩ ∧ LaidKids h i refs kids := hl
    refine ⟨par, refs, hframe i (Nat.le_refl i) _ hget, ?_⟩
    exact laidKids_frame kids h h' i refs hk
      (fun j hj nd hnd => hframe j (Nat.le_of_lt hj) nd hnd)
theorem laidKids_frame (ts : List BTree) : ∀ (h h' : Heap) (i : Nat)
    (refs : List ChildRef), LaidKids h i refs ts →
    (∀ j : Nat, i < j → ∀ nd : NodeData, h[j]? = some nd → h'[j]? = some nd) →
    LaidKids h' i refs ts := by
  match ts with
  | [] =>
    intro h h' i refs hk hframe
    match refs with
    | [] => trivial
    | .attr s :: cs => exact absurd hk (by simp [LaidKids])
    | .node j :: cs => exact absurd hk (by simp [LaidKids])
  | t :: ts' =>
    intro h h' i refs hk hframe
    match refs, t with
    | [], _ => exact absurd hk (by simp [LaidKids])
    | .attr s :: cs, .attr s' =>
      obtain ⟨hs, hk'⟩ := hk
      exact ⟨hs, laidKids_frame ts' h h' i cs hk' hframe⟩
    | .attr s :: cs, .node kw kids => exact absurd hk (by simp [LaidKids])
    | .node j :: cs, t =>
      obtain ⟨hij, hl, hk'⟩ := hk
      refine ⟨hij, ?_, laidKids_frame ts' h h' i cs hk' hframe⟩
      exact laid_frame t h h' j hl
        (fun j' hj' nd hnd => hframe j' (Nat.lt_of_lt_of_le hij hj') nd hnd)
end

theorem laidKids_append (h : Heap) (i : Nat) : ∀ (t₁ : List BTree)
    (r₁ r₂ : List ChildRef) (t₂ : List BTree),
    LaidKids h i r₁ t₁ → LaidKids h i r₂ t₂ → LaidKids h i (r₁ ++ r₂) (t₁ ++ t₂) := by
  intro t₁
  induction t₁ with
  | nil =>
    intro r₁ r₂ t₂ h1 h2
    match r₁ with
    | [] => exact h2
    | .attr s :: cs => exact absurd h1 (by simp [LaidKids])
    | .node j :: cs => exact absurd h1 (by simp [LaidKids])
  | cons t ts ih =>
    intro r₁ r₂ t₂ h1 h2
    match r₁, t with
    | [], _ => exact absurd h1 (by simp [LaidKids])
    | .attr s :: cs, .attr s' =>
      obtain ⟨hs, h1'⟩ := h1
      exact ⟨hs, ih cs r₂ t₂ h1' h2⟩
    | .attr s :: cs, .node kw kids => exact absurd h1 (by simp [LaidKids])
    | .node j :: cs, t =>
      obtain ⟨hij, hl, h1'⟩ := h1
      exact ⟨hij, hl, ih cs r₂ t₂ h1' h2⟩

/-- Building the children of `kids` under a live node extends that node's
reference list by a faithful layout of `kids`, disturbs no other existing
entry, and only grows the heap. -/
theorem addEntries_spec (kids : List BTree) : ∀ (h : Heap) (i : Nat)
    (par : Option Nat) (kw : String) (refs₀ : List ChildRef) (ts₀ : List BTree),
    h[i]? = some ⟨par, kw, refs₀⟩ → LaidKids h i refs₀ ts₀ →
    (addEntries h i kids).length ≥ h.length ∧
    (∀ j : Nat, j < h.length → j ≠ i → (addEntries h i kids)[j]? = h[j]?) ∧
    ∃ refs₁ : List ChildRef, (addEntries h i kids)[i]? = some ⟨par, kw, refs₁⟩ ∧
      LaidKids (addEntries h i kids) i refs₁ (ts₀ ++ kids) := by
  match kids with
  | [] =>
    intro h i par kw refs₀ ts₀ hget hlk
    rw [show addEntries h i ([] : List BTree) = h by simp [addEntries]]
    exact ⟨Nat.le_refl _, fun j _ _ => rfl, refs₀, by simpa using hget, by simpa using hlk⟩
  | k :: ks =>
    intro h i par kw refs₀ ts₀ hget hlk
    have hi : i < h.length := lt_of_get_some hget
    rw [show addEntries h i (k :: ks) = addEntries (addEntry h i k) i ks by
      simp [addEntries]]
    match k with
    | .attr s =>
      have hh1 : addEntry h i (.attr s) = modifyAt h i fun d =>
          { d with child := d.child ++ [.attr s] } := by
        simp [addEntry]
      have hlen1 : (addEntry h i (.attr s)).length = h.length := by
        rw [hh1]
        exact modifyAt_length _ _ _
      have hget1 : (addEntry h i (.attr s))[i]? =
          some ⟨par, kw, refs₀ ++ [.attr s]⟩ := by
        rw [hh1]
        exact modifyAt_get_self _ _ _ _ hget
      have hold1 : ∀ j : Nat, j ≠ i → (addEntry h i (.attr s))[j]? = h[j]? := by
        intro j hj
        rw [hh1]
        exact modifyAt_get_ne _ _ _ _ hj
      have hlk1 : LaidKids (addEntry h i (.attr s)) i (refs₀ ++ [.attr s])
          (ts₀ ++ [.attr s]) := by
        refine laidKids_append _ _ _ _ _ _ ?_ ⟨rfl, trivial⟩
        exact laidKids_frame ts₀ h _ i refs₀ hlk
          (fun j hj nd hnd => by rw [hold1 j (by omega)]; exact hnd)
      obtain ⟨hlen2, hold2, refs₁, hget2, hlk2⟩ :=
        addEntries_spec ks (addEntry h i (.attr s)) i par kw
          (refs₀ ++ [.attr s]) (ts₀ ++ [.attr s]) hget1 hlk1
      refine ⟨by omega, ?_, refs₁, hget2, by simpa using hlk2⟩
      intro j hj hji
      rw [hold2 j (by omega) hji, hold1 j hji]
    | .node kw' kids' =>
      have hh1 : addEntry h i (.node kw' kids') =
          addEntries ((modifyAt h i fun d =>
            { d with child := d.child ++ [.node h.length] }) ++ [⟨some i, kw', []⟩])
            h.length kids' := by
        simp [addEntry]
      have hmlen : ((modifyAt h i fun d =>
          { d with child := d.child ++ [.node h.length] }) ++
            [(⟨some i, kw', []⟩ : NodeData)]).length = h.length + 1 := by
        rw [List.length_append, modifyAt_length]
        rfl
      have hgetf : ((modifyAt h i fun d =>
          { d with child := d.child ++ [.node h.length] }) ++
            [(⟨some i, kw', []⟩ : NodeData)])[h.length]? = some ⟨some i, kw', []⟩ :=
        get_append_at _ _ _ (modifyAt_length _ _ _)
      have hgeti : ((modifyAt h i fun d =>
          { d with child := d.child ++ [.node h.length] }) ++
            [(⟨some i, kw', []⟩ : NodeData)])[i]? =
          some ⟨par, kw, refs₀ ++ [.node h.length]⟩ := by
        rw [get_append_old _ _ _ (by rw [modifyAt_length]; exact hi)]
        exact modifyAt_get_self _ _ _ _ hget
      have hgetold : ∀ j : Nat, j < h.length → j ≠ i →
          ((modifyAt h i fun d =>
            { d with child := d.child ++ [.node h.length] }) ++
              [(⟨some i, kw', []⟩ : NodeData)])[j]? = h[j]? := by
        intro j hj hji
        rw [get_append_old _ _ _ (by rw [modifyAt_length]; exact hj)]
        exact modifyAt_get_ne _ _ _ _ hji
      obtain ⟨hlen1, hold1, refs', hget1, hlk1⟩ :=
        addEntries_spec kids' ((modifyAt h i fun d =>
          { d with child := d.child ++ [.node h.length] }) ++ [⟨some i, kw', []⟩])
          h.length (some i) kw' [] [] hgetf trivial
      rw [← hh1] at hlen1 hold1 hget1 hlk1
      have hlaid : Laid (addEntry h i (.node kw' kids')) h.length
          (.node kw' kids') := ⟨some i, refs', hget1, by simpa using hlk1⟩
      have hold1' : ∀ j : Nat, j < h.length → j ≠ i →
          (addEntry h i (.node kw' kids'))[j]? = h[j]? := by
        intro j hj hji
        rw [hold1 j (by rw [hmlen]; omega) (by omega)]
        exact hgetold j hj hji
      have hgeti' : (addEntry h i (.node kw' kids'))[i]? =
          some ⟨par, kw, refs₀ ++ [.node h.length]⟩ := by
        rw [hold1 i (by rw [hmlen]; omega) (by omega)]
        exact hgeti
      have hlk' : LaidKids (addEntry h i (.node kw' kids')) i
          (refs₀ ++ [.node h.length]) (ts₀ ++ [.node kw' kids']) := by
        refine laidKids_append _ _ _ _ _ _ ?_ ⟨hi, hlaid, trivial⟩
        refine laidKids_frame ts₀ h _ i refs₀ hlk ?_
        intro j hj nd hnd
        have hjl : j < h.length := lt_of_get_some hnd
        rw [hold1' j hjl (by omega)]
        exact hnd
      obtain ⟨hlen2, hold2, refs₁, hget2, hlk2⟩ :=
        addEntries_spec ks (addEntry h i (.node kw' kids')) i par kw
          (refs₀ ++ [.node h.length]) (ts₀ ++ [.node kw' kids']) hgeti' hlk'
      have hlen1' : (addEntry h i (.node kw' kids')).length ≥ h.length + 1 := by
        rw [hh1, ← hmlen]
        exact hlen1
      refine ⟨by omega, ?_, refs₁, hget2, by simpa using hlk2⟩
      intro j hj hji
      rw [hold2 j (by omega) hji, hold1' j hj hji]

mutual
/-- A laid-out tree is recovered exactly by fuel-bounded extraction. -/
theorem laid_extract (t : BTree) : ∀ (h : Heap) (i fuel : Nat), Laid h i t →
    h.length - i ≤ fuel → extractB h fuel i = some t := by
  match t with
  | .attr s =>
    intro h i fuel hl _
    exact absurd hl (by simp [Laid])
  | .node kw kids =>
    intro h i fuel hl hf
    obtain ⟨par, refs, hget, hk⟩ : ∃ par refs,
        h[i]? = some ⟨par, kw, refs⟩ ∧ LaidKids h i refs kids := hl
    have hi : i < h.length := lt_of_get_some hget
    match fuel with
    | 0 => omega
    | fuel + 1 =>
      have hkids := laid_extract_kids kids h i refs fuel hk (by omega)
      rw [show extractB h (fuel + 1) i = (match h[i]? with
        | none => none
        | some nd =>
          match nd.child.foldr (fun c acc =>
            match acc with
            | none => none
            | some ts =>
              match c with
              | .attr s => some (BTree.attr s :: ts)
              | .node j =>
                match extractB h fuel j with
                | some t => some (t :: ts)
                | none => none) (some []) with
          | some ks => some (.node nd.keyword ks)
          | none => none) from rfl]
      rw [hget]
      simp only
      rw [hkids]
/-- Foldr step of `extractB` on a laid-out reference list. -/
theorem laid_extract_kids (ts : List BTree) : ∀ (h : Heap) (i : Nat)
    (refs : List ChildRef) (fuel : Nat), LaidKids h i refs ts →
    h.length - i ≤ fuel + 1 →
    refs.foldr (fun c acc =>
      match acc with
      | none => none
      | some ts =>
        match c with
        | .attr s => some (BTree.attr s :: ts)
        | .node j =>
          match extractB h fuel j with
          | some t => some (t :: ts)
          | none => none) (some []) = some ts := by
  match ts with
  | [] =>
    intro h i refs fuel hk _
    match refs with
    | [] => rfl
    | .attr s :: cs => exact absurd hk (by simp [LaidKids])
    | .node j :: cs => exact absurd hk (by simp [LaidKids])
  | t :: ts' =>
    intro h i refs fuel hk hf
    match refs, t with
    | [], _ => exact absurd hk (by simp [LaidKids])
    | .attr s :: cs, .attr s' =>
      obtain ⟨hs, hk'⟩ := hk
      subst hs
      rw [List.foldr_cons, laid_extract_kids ts' h i cs fuel hk' hf]
    | .attr s :: cs, .node kw kids => exact absurd hk (by simp [LaidKids])
    | .node j :: cs, t =>
      obtain ⟨hij, hl, hk'⟩ := hk
      have hjlt : j < h.length := by
        match t, hl with
        | .node kw kids, hl =>
          obtain ⟨par, refs', hget, _⟩ : ∃ par refs',
              h[j]? = some ⟨par, kw, refs'⟩ ∧ LaidKids h j refs' kids := hl
          exact lt_of_get_some hget
      have hext : extractB h fuel j = some t :=
        laid_extract t h j fuel hl (by omega)
      rw [List.foldr_cons, laid_extract_kids ts' h i cs fuel hk' hf]
      simp only
      rw [hext]
end

/-- The heap built by parsing a serialized root extracts back to the tree. -/
theorem rootHeap_extract (kw : String) (kids : List BTree) :
    extractTree (rootHeap kw kids) 0 = some (.node kw kids) := by
  obtain ⟨hlen, _, refs₁, hget, hlk⟩ :=
    addEntries_spec kids [⟨none, kw, []⟩] 0 none kw [] [] rfl trivial
  have hlaid : Laid (rootHeap kw kids) 0 (.node kw kids) :=
    ⟨none, refs₁, hget, by simpa using hlk⟩
  exact laid_extract (.node kw kids) (rootHeap kw kids) 0
    ((rootHeap kw kids).length + 1) hlaid (by omega)

/-! ## Tokenizing a rendered tree recovers its tokens -/

/-- The token the tokenizer would emit for a pending word, if any. -/
def flushW (m : TokenType) (w : String) : List Token :=
  if w = "" then [] else [⟨m, w⟩]

/-- No double quote among the characters (true of every token payload). -/
def noQuoteStr (w : String) : Prop := ∀ c ∈ w.data, c ≠ '"'

/-- The only whitespace character occurring is the plain space. -/
def spaceOnlyStr (w : String) : Prop := ∀ c ∈ w.data, isPySpace c = true → c = ' '

/-- A value that survives the dump/parse round trip. -/
def goodStr (w : String) : Prop := noQuoteStr w ∧ spaceOnlyStr w

/-- A pending buffer consisting only of plain characters. -/
def bareOK (w : String) : Prop := ∀ c ∈ w.data, plainChar c = true

theorem string_mk_data (w : String) : String.mk w.data = w := by
  cases w
  rfl

theorem bareOK_empty : bareOK "" := by
  intro c hc
  cases hc

theorem tokStep_open (m : TokenType) (w : String) :
    tokStep ⟨false, m, w⟩ '(' = (⟨false, .KEYWORD, ""⟩, flushW m w ++ [⟨.OPEN, "("⟩]) := by
  by_cases hw : w = "" <;>
    simp [tokStep, flushW, hw, show String.singleton '(' = "(" from rfl]

theorem tokStep_close (m : TokenType) (w : String) :
    tokStep ⟨false, m, w⟩ ')' = (⟨false, .WORD, ""⟩, flushW m w ++ [⟨.CLOSE, ")"⟩]) := by
  by_cases hw : w = "" <;>
    simp [tokStep, flushW, hw, show String.singleton ')' = ")" from rfl]

theorem tokStep_space_flush (m : TokenType) (w : String) (c : Char)
    (hc : isPySpace c = true) :
    tokStep ⟨false, m, w⟩ c =
      (⟨false, if w = "" then m else .WORD, ""⟩, flushW m w) := by
  rw [tokStep_space ⟨false, m, w⟩ c rfl hc]
  by_cases hw : w = "" <;> simp [flushW, hw]

theorem needsQuote_false (w : String) (hq : needsQuote w = false) :
    w ≠ "" ∧ ∀ c ∈ w.data, c ≠ '(' ∧ c ≠ ')' ∧ c ≠ ' ' := by
  simp only [needsQuote, Bool.or_eq_false_iff, beq_eq_false_iff_ne, ne_eq] at hq
  obtain ⟨⟨⟨h1, h2⟩, h3⟩, h4⟩ := hq
  refine ⟨h4, ?_⟩
  intro c hc
  refine ⟨?_, ?_, ?_⟩ <;> intro hcc <;> subst hcc
  · rw [List.contains_eq_any_beq] at h1
    simp at h1
    exact h1 _ hc rfl
  · rw [List.contains_eq_any_beq] at h2
    simp at h2
    exact h2 _ hc rfl
  · rw [List.contains_eq_any_beq] at h3
    simp at h3
    exact h3 _ hc rfl

theorem goodStr_bare (w : String) (hg : goodStr w) (hq : needsQuote w = false) :
    bareOK w ∧ w ≠ "" := by
  obtain ⟨hne, hspec⟩ := needsQuote_false w hq
  refine ⟨?_, hne⟩
  intro c hc
  obtain ⟨h1, h2, h3⟩ := hspec c hc
  have h4 : c ≠ '"' := hg.1 c hc
  have h5 : isPySpace c = false := by
    cases h : isPySpace c
    · rfl
    · exact absurd (hg.2 c hc h) h3
  simp [plainChar, h1, h2, h3, h4, h5]

theorem renderWord_quoted_data (w : String) (hq : needsQuote w = true) :
    (renderWord w).data = '"' :: (w.data ++ ['"']) := by
  rw [renderWord, if_pos hq, String.data_append, String.data_append]
  rfl

/-- Scanning a rendered word from an empty pending buffer: a quoted word is
emitted at once (typed by the mode), a bare word becomes the pending
buffer. -/
theorem scanRenderWord (w : String) (hg : goodStr w) (m : TokenType) :
    tokenizeAux (renderWord w).data ⟨false, m, ""⟩ =
      if needsQuote w then ([⟨m, w⟩], ⟨false, .WORD, ""⟩) else ([], ⟨false, m, w⟩) := by
  cases hq : needsQuote w with
  | true =>
    rw [renderWord_quoted_data w hq]
    rw [show ('"' :: (w.data ++ ['"'])) = '"' :: (w.data ++ ['"']) from rfl]
    rw [scan_quoted w.data (fun c hc => hg.1 c hc) m]
    rw [string_mk_data]
    simp
  | false =>
    obtain ⟨hbare, hne⟩ := goodStr_bare w hg hq
    rw [renderWord, if_neg (by simp [hq])]
    rw [scan_plain w.data hbare m ""]
    rw [show ("" : String).data = [] from rfl, List.nil_append, string_mk_data]
    simp

theorem tokenizeAux_cons (c : Char) (cs : List Char) (s : TState) :
    tokenizeAux (c :: cs) s =
      ((tokStep s c).2 ++ (tokenizeAux cs (tokStep s c).1).1,
        (tokenizeAux cs (tokStep s c).1).2) := rfl

theorem tokenizeAux_single (c : Char) (s : TState) :
    tokenizeAux [c] s = ((tokStep s c).2 ++ [], (tokStep s c).1) := rfl

/-- Scanning the rendered `OPEN` chunk (newline, indentation, `(`) flushes
any pending word and emits `OPEN`, leaving keyword mode with an empty
buffer. -/
theorem scan_open_chunk (ind : Int) (nl : Bool) (m : TokenType) (w : String) :
    tokenizeAux (rendered [⟨.OPEN, "("⟩] ind nl).data ⟨false, m, w⟩ =
      (flushW m w ++ [⟨.OPEN, "("⟩], ⟨false, .KEYWORD, ""⟩) := by
  have hdata : (rendered [⟨.OPEN, "("⟩] ind nl).data =
      '\n' :: (List.replicate ind.toNat ' ' ++ ['(']) := by
    simp [rendered, renderTok, spaces, String.data_append]
  rw [hdata, tokenizeAux_cons,
    tokStep_space_flush m w '\n' (by decide)]
  rw [tokenizeAux_append, scan_spaces (List.replicate ind.toNat ' ')
    (fun c hc => by rw [List.eq_of_mem_replicate hc]; decide) _]
  rw [tokenizeAux_single, tokStep_open]
  simp [flushW]

/-- Scanning the rendered `CLOSE` chunk flushes any pending word and emits
`CLOSE`, leaving word mode with an empty buffer. -/
theorem scan_close_chunk (ind : Int) (nl : Bool) (m : TokenType) (w : String) :
    tokenizeAux (rendered [⟨.CLOSE, ")"⟩] ind nl).data ⟨false, m, w⟩ =
      (flushW m w ++ [⟨.CLOSE, ")"⟩], ⟨false, .WORD, ""⟩) := by
  cases nl with
  | true =>
    have hdata : (rendered [⟨.CLOSE, ")"⟩] ind true).data =
        '\n' :: (List.replicate (ind - 2).toNat ' ' ++ [')']) := by
      simp [rendered, renderTok, spaces, String.data_append]
    rw [hdata, tokenizeAux_cons, tokStep_space_flush m w '\n' (by decide)]
    rw [tokenizeAux_append, scan_spaces (List.replicate (ind - 2).toNat ' ')
      (fun c hc => by rw [List.eq_of_mem_replicate hc]; decide) _]
    rw [tokenizeAux_single, tokStep_close]
    simp [flushW]
  | false =>
    have hdata : (rendered [⟨.CLOSE, ")"⟩] ind false).data = [')'] := by
      simp [rendered, renderTok, String.data_append]
    rw [hdata, tokenizeAux_single, tokStep_close]
    simp

/-- Scanning the rendered `KEYWORD` chunk from keyword mode with an empty
buffer: a quoted keyword is emitted at once, a bare one becomes pending. -/
theorem scan_kw_chunk (ind : Int) (nl : Bool) (kw : String) (hg : goodStr kw) :
    tokenizeAux (rendered [⟨.KEYWORD, kw⟩] ind nl).data ⟨false, .KEYWORD, ""⟩ =
      if needsQuote kw then ([⟨.KEYWORD, kw⟩], ⟨false, .WORD, ""⟩)
      else ([], ⟨false, .KEYWORD, kw⟩) := by
  have hdata : (rendered [⟨.KEYWORD, kw⟩] ind nl).data = (renderWord kw).data := by
    simp [rendered, renderTok, String.empty_append]
  rw [hdata]
  exact scanRenderWord kw hg .KEYWORD

/-- Scanning the rendered `WORD` chunk (space then the word) from a state
whose pending buffer, if empty, is in word mode: the pending word is
flushed, then a quoted word is emitted and a bare one becomes pending. -/
theorem scan_word_chunk (ind : Int) (nl : Bool) (m : TokenType) (w s : String)
    (hg : goodStr s) (hpre : w = "" → m = .WORD) :
    tokenizeAux (rendered [⟨.WORD, s⟩] ind nl).data ⟨false, m, w⟩ =
      if needsQuote s then (flushW m w ++ [⟨.WORD, s⟩], ⟨false, .WORD, ""⟩)
      else (flushW m w, ⟨false, .WORD, s⟩) := by
  have hdata : (rendered [⟨.WORD, s⟩] ind nl).data = ' ' :: (renderWord s).data := by
    simp [rendered, renderTok, String.empty_append, String.data_append]
  rw [hdata, tokenizeAux_cons, tokStep_space_flush m w ' ' (by decide)]
  have hm1 : (if w = "" then m else TokenType.WORD) = .WORD := by
    by_cases hw : w = ""
    · rw [if_pos hw]
      exact hpre hw
    · rw [if_neg hw]
  rw [hm1]
  rw [show ((⟨false, .WORD, ""⟩ : TState) : TState) = ⟨false, .WORD, ""⟩ from rfl]
  rw [scanRenderWord s hg .WORD]
  cases hq : needsQuote s <;> simp

/-- Every value in the tree survives the round trip. -/
def goodKids (kids : List BTree) : Prop := ∀ w ∈ kidsVals kids, goodStr w

theorem flushW_empty (m : TokenType) : flushW m "" = [] := by
  simp [flushW]

theorem flushW_ne (m : TokenType) (w : String) (hw : w ≠ "") :
    flushW m w = [⟨m, w⟩] := by
  simp [flushW, hw]

mutual
/-- Scanning the rendered text of a node from any outside-quote state
flushes the pending word and recovers exactly the node's token sequence,
ending in word mode with an empty buffer. -/
theorem scan_nodeT (kw : String) (kids : List BTree) :
    goodStr kw → goodKids kids →
    ∀ (ind : Int) (nl : Bool) (m : TokenType) (w : String),
    tokenizeAux (rendered (nodeToTokens (.node kw kids)) ind nl).data ⟨false, m, w⟩ =
      (flushW m w ++ nodeToTokens (.node kw kids), ⟨false, .WORD, ""⟩) := by
  intro hkw hg ind nl m w
  rw [show nodeToTokens (.node kw kids) =
    [⟨.OPEN, "("⟩] ++ ([⟨.KEYWORD, kw⟩] ++ (kidsToTokens kids ++ [⟨.CLOSE, ")"⟩])) by
      simp [nodeToTokens]]
  rw [rendered_append, rendered_append, rendered_append]
  rw [String.data_append, String.data_append, String.data_append]
  rw [tokenizeAux_append, scan_open_chunk]
  rw [tokenizeAux_append, scan_kw_chunk _ _ kw hkw]
  cases hq : needsQuote kw with
  | true =>
    rw [if_pos rfl]
    obtain ⟨m', w', out₂, heq, hout, hpre'⟩ :=
      scan_kidsT kids hg _ _ .WORD "" (fun _ => rfl)
    rw [tokenizeAux_append, heq, scan_close_chunk]
    rw [flushW_empty] at hout
    rw [show ([] : List Token) ++ kidsToTokens kids = kidsToTokens kids from rfl] at hout
    rw [← hout]
    simp [List.append_assoc]
  | false =>
    rw [if_neg (by simp)]
    have hne : kw ≠ "" := (needsQuote_false kw hq).1
    obtain ⟨m', w', out₂, heq, hout, hpre'⟩ :=
      scan_kidsT kids hg _ _ .KEYWORD kw (fun h => absurd h hne)
    rw [tokenizeAux_append, heq, scan_close_chunk]
    rw [flushW_ne .KEYWORD kw hne] at hout
    have hmain : out₂ ++ (flushW m' w' ++ [(⟨.CLOSE, ")"⟩ : Token)]) =
        [(⟨.KEYWORD, kw⟩ : Token)] ++ kidsToTokens kids ++ [⟨.CLOSE, ")"⟩] := by
      rw [← List.append_assoc, hout]
    simp [List.append_assoc] at hmain ⊢
    simp [hmain]
/-- Scanning the rendered text of a child list from an outside-quote state
(whose mode is `WORD` whenever the buffer is empty) emits all its tokens,
except that a final bare word may remain pending; the pending word is
always the missing suffix. -/
theorem scan_kidsT (kids : List BTree) :
    goodKids kids →
    ∀ (ind : Int) (nl : Bool) (m : TokenType) (w : String), (w = "" → m = .WORD) →
    ∃ (m' : TokenType) (w' : String) (out : List Token),
      tokenizeAux (rendered (kidsToTokens kids) ind nl).data ⟨false, m, w⟩ =
        (out, ⟨false, m', w'⟩) ∧
      out ++ flushW m' w' = flushW m w ++ kidsToTokens kids ∧
      (w' = "" → m' = .WORD) := by
  match kids with
  | [] =>
    intro _ ind nl m w hpre
    refine ⟨m, w, [], ?_, ?_, hpre⟩
    · rw [show kidsToTokens ([] : List BTree) = [] by simp [kidsToTokens]]
      rfl
    · rw [show kidsToTokens ([] : List BTree) = [] by simp [kidsToTokens]]
      simp
  | k :: ks =>
    intro hg ind nl m w hpre
    have hgsplit : (∀ v ∈ treeVals k, goodStr v) ∧ goodKids ks := by
      constructor
      · intro v hv
        refine hg v ?_
        rw [show kidsVals (k :: ks) = treeVals k ++ kidsVals ks by simp [kidsVals]]
        exact List.mem_append.mpr (Or.inl hv)
      · intro v hv
        refine hg v ?_
        rw [show kidsVals (k :: ks) = treeVals k ++ kidsVals ks by simp [kidsVals]]
        exact List.mem_append.mpr (Or.inr hv)
    rw [show kidsToTokens (k :: ks) = nodeToTokens k ++ kidsToTokens ks by
      simp [kidsToTokens]]
    rw [rendered_append, String.data_append, tokenizeAux_append]
    match k with
    | .node kw' kids' =>
      have hkw' : goodStr kw' := hgsplit.1 kw' (by
        rw [show treeVals (BTree.node kw' kids') = kw' :: kidsVals kids' by
          simp [treeVals]]
        exact List.mem_cons_self _ _)
      have hkids' : goodKids kids' := by
        intro v hv
        refine hgsplit.1 v ?_
        rw [show treeVals (BTree.node kw' kids') = kw' :: kidsVals kids' by
          simp [treeVals]]
        exact List.mem_cons_of_mem _ hv
      rw [scan_nodeT kw' kids' hkw' hkids' _ _ m w]
      obtain ⟨m', w', out₂, heq, hout, hpre'⟩ :=
        scan_kidsT ks hgsplit.2 _ _ .WORD "" (fun _ => rfl)
      rw [heq]
      refine ⟨m', w', (flushW m w ++ nodeToTokens (.node kw' kids')) ++ out₂,
        rfl, ?_, hpre'⟩
      rw [flushW_empty] at hout
      rw [show ([] : List Token) ++ kidsToTokens ks = kidsToTokens ks from rfl] at hout
      rw [← hout]
      simp [List.append_assoc]
    | .attr s =>
      have hs : goodStr s := hgsplit.1 s (by simp [treeVals])
      rw [show nodeToTokens (.attr s) = [⟨.WORD, s⟩] by simp [nodeToTokens]]
      rw [scan_word_chunk _ _ m w s hs hpre]
      cases hqs : needsQuote s with
      | true =>
        rw [if_pos rfl]
        obtain ⟨m', w', out₂, heq, hout, hpre'⟩ :=
          scan_kidsT ks hgsplit.2 _ _ .WORD "" (fun _ => rfl)
        rw [heq]
        refine ⟨m', w', (flushW m w ++ [⟨.WORD, s⟩]) ++ out₂, rfl, ?_, hpre'⟩
        rw [flushW_empty] at hout
        rw [show ([] : List Token) ++ kidsToTokens ks = kidsToTokens ks from rfl] at hout
        rw [← hout]
        simp [List.append_assoc]
      | false =>
        rw [if_neg (by simp)]
        have hne : s ≠ "" := (needsQuote_false s hqs).1
        obtain ⟨m', w', out₂, heq, hout, hpre'⟩ :=
          scan_kidsT ks hgsplit.2 _ _ .WORD s (fun _ => rfl)
        rw [heq]
        refine ⟨m', w', flushW m w ++ out₂, rfl, ?_, hpre'⟩
        rw [flushW_ne .WORD s hne] at hout
        have hmain : (flushW m w ++ out₂) ++ flushW m' w' =
            flushW m w ++ ([(⟨.WORD, s⟩ : Token)] ++ kidsToTokens ks) := by
          rw [List.append_assoc, hout]
        simp [List.append_assoc] at hmain ⊢
        simp [hmain]
end

/-- Tokenizing the dump of a good tree recovers exactly its token
sequence. -/
theorem tokenize_dump (kw : String) (kids : List BTree)
    (hkw : goodStr kw) (hg : goodKids kids) :
    tokenize (dump (.node kw kids)) = nodeToTokens (.node kw kids) := by
  rw [tokenize, dump,
    show render (nodeToTokens (.node kw kids)) =
      rendered (nodeToTokens (.node kw kids)) 0 false from rfl]
  rw [scan_nodeT kw kids hkw hg 0 false .KEYWORD ""]
  simp [flushW]

/-! ## Token payloads never contain a double quote -/

theorem tokStep_noquote (s : TState) (c : Char) (hw : noQuoteStr s.word) :
    (∀ tok ∈ (tokStep s c).2, noQuoteStr tok.data) ∧
    noQuoteStr (tokStep s c).1.word := by
  have hpush : ∀ hc : c ≠ '"', noQuoteStr (s.word.push c) := by
    intro hc c' hc'
    simp only [String.data_push] at hc'
    rcases List.mem_append.mp hc' with h | h
    · exact hw c' h
    · simp at h
      subst h
      exact hc
  have hempty : noQuoteStr "" := by
    intro c' hc'
    cases hc'
  cases hq : s.quote with
  | true =>
    by_cases hc : c = '"'
    · have hs : tokStep s c = (⟨false, .WORD, ""⟩, [⟨s.word_token, s.word⟩]) := by
        simp [tokStep, hq, hc]
      rw [hs]
      refine ⟨?_, hempty⟩
      intro tok htok
      simp at htok
      subst htok
      exact hw
    · have hs : tokStep s c = ({ s with word := s.word.push c }, []) := by
        simp [tokStep, hq, hc]
      rw [hs]
      exact ⟨(by intro tok htok; cases htok), hpush hc⟩
  | false =>
    by_cases hc : c = '"'
    · have hs : tokStep s c = ({ s with quote := true }, []) := by
        simp [tokStep, hq, hc]
      rw [hs]
      exact ⟨(by intro tok htok; cases htok), hw⟩
    · by_cases hb : c = '(' ∨ c = ')'
      · have hs : tokStep s c = (⟨false, if c = '(' then .KEYWORD else .WORD, ""⟩,
            (if s.word ≠ "" then [⟨s.word_token, s.word⟩] else []) ++
              [⟨if c = '(' then .OPEN else .CLOSE, String.singleton c⟩]) := by
          simp [tokStep, hq, hc, hb]
        rw [hs]
        refine ⟨?_, hempty⟩
        intro tok htok
        rcases List.mem_append.mp htok with h | h
        · by_cases hww : s.word ≠ ""
          · rw [if_pos hww] at h
            simp at h
            subst h
            exact hw
          · rw [if_neg hww] at h
            cases h
        · simp at h
          subst h
          intro c' hc'
          simp [String.singleton] at hc'
          subst hc'
          exact hc
      · by_cases hsp : isPySpace c
        · by_cases hww : s.word = ""
          · have hs : tokStep s c = (s, []) := by
              simp [tokStep, hq, hc, hb, hsp, hww]
            rw [hs]
            exact ⟨(by intro tok htok; cases htok), hw⟩
          · have hs : tokStep s c = (⟨false, .WORD, ""⟩, [⟨s.word_token, s.word⟩]) := by
              simp [tokStep, hq, hc, hb, hsp, hww]
            rw [hs]
            refine ⟨?_, hempty⟩
            intro tok htok
            simp at htok
            subst htok
            exact hw
        · have hs : tokStep s c = ({ s with word := s.word.push c }, []) := by
            simp [tokStep, hq, hc, hb, hsp]
          rw [hs]
          exact ⟨(by intro tok htok; cases htok), hpush hc⟩

theorem tokenizeAux_noquote (cs : List Char) : ∀ s : TState, noQuoteStr s.word →
    (∀ tok ∈ (tokenizeAux cs s).1, noQuoteStr tok.data) ∧
    noQuoteStr (tokenizeAux cs s).2.word := by
  induction cs with
  | nil =>
    intro s hw
    exact ⟨(by intro tok htok; cases htok), hw⟩
  | cons c cs ih =>
    intro s hw
    obtain ⟨hstep, hw'⟩ := tokStep_noquote s c hw
    obtain ⟨hrest, hw''⟩ := ih (tokStep s c).1 hw'
    rw [tokenizeAux_cons]
    refine ⟨?_, hw''⟩
    intro tok htok
    rcases List.mem_append.mp htok with h | h
    · exact hstep tok h
    · exact hrest tok h

theorem tokenize_noquote (D : String) : ∀ tok ∈ tokenize D, noQuoteStr tok.data :=
  (tokenizeAux_noquote D.data ⟨false, .KEYWORD, ""⟩ (by intro c hc; cases hc)).1

/-! ## Heap and extraction payloads inherit the no-quote property -/

def heapNoQuote (h : Heap) : Prop :=
  ∀ nd ∈ h, noQuoteStr nd.keyword ∧
    ∀ s : String, ChildRef.attr s ∈ nd.child → noQuoteStr s

theorem mem_modifyAt (h : Heap) (p : Nat) (f : NodeData → NodeData) :
    ∀ nd ∈ modifyAt h p f, nd ∈ h ∨ ∃ nd₀ ∈ h, nd = f nd₀ := by
  induction h generalizing p with
  | nil =>
    intro nd hnd
    cases hnd
  | cons x xs ih =>
    intro nd hnd
    cases p with
    | zero =>
      rcases List.mem_cons.mp hnd with h | h
      · exact Or.inr ⟨x, List.mem_cons_self _ _, h⟩
      · exact Or.inl (List.mem_cons_of_mem _ h)
    | succ n =>
      rcases List.mem_cons.mp hnd with h | h
      · exact Or.inl (h ▸ List.mem_cons_self _ _)
      · rcases ih n nd h with h' | ⟨nd₀, hnd₀, he⟩
        · exact Or.inl (List.mem_cons_of_mem _ h')
        · exact Or.inr ⟨nd₀, List.mem_cons_of_mem _ hnd₀, he⟩

theorem pstep_noquote (s : PState) (t : Token) (s' : PState)
    (hstep : pstep s t = .ok s') (hts : noQuoteStr t.data)
    (hh : heapNoQuote s.heap) : heapNoQuote s'.heap := by
  match htype : t.type with
  | .OPEN =>
    simp [pstep, htype] at hstep
    rw [← hstep]
    exact hh
  | .KEYWORD =>
    cases hn : s.node with
    | some p =>
      simp [pstep, htype, hn] at hstep
      cases hstep
      intro nd hnd
      rcases List.mem_append.mp hnd with h | h
      · rcases mem_modifyAt _ _ _ nd h with h' | ⟨nd₀, hnd₀, he⟩
        · exact hh nd h'
        · subst he
          obtain ⟨hk, hc⟩ := hh nd₀ hnd₀
          refine ⟨hk, ?_⟩
          intro str hstr
          simp only at hstr
          rcases List.mem_append.mp hstr with h2 | h2
          · exact hc str h2
          · simp at h2
      · simp at h
        subst h
        exact ⟨hts, (by intro str hstr; cases hstr)⟩
    | none =>
      cases hrv : s.root with
      | some q => simp [pstep, htype, hn, hrv] at hstep
      | none =>
        simp [pstep, htype, hn, hrv] at hstep
        cases hstep
        intro nd hnd
        rcases List.mem_append.mp hnd with h | h
        · exact hh nd h
        · simp at h
          subst h
          exact ⟨hts, (by intro str hstr; cases hstr)⟩
  | .WORD =>
    cases hn : s.node with
    | some p =>
      simp [pstep, htype, hn] at hstep
      cases hstep
      intro nd hnd
      rcases mem_modifyAt _ _ _ nd hnd with h' | ⟨nd₀, hnd₀, he⟩
      · exact hh nd h'
      · subst he
        obtain ⟨hk, hc⟩ := hh nd₀ hnd₀
        refine ⟨hk, ?_⟩
        intro str hstr
        simp only at hstr
        rcases List.mem_append.mp hstr with h2 | h2
        · exact hc str h2
        · simp at h2
          subst h2
          exact hts
    | none => simp [pstep, htype, hn] at hstep
  | .CLOSE =>
    cases hst : s.stack with
    | nil => simp [pstep, htype, hst] at hstep
    | cons top rest =>
      simp [pstep, htype, hst] at hstep
      cases hstep
      exact hh

theorem foldl_noquote (ts : List Token) : ∀ (s s' : PState),
    (∀ tok ∈ ts, noQuoteStr tok.data) → heapNoQuote s.heap →
    ts.foldlM pstep s = .ok s' → heapNoQuote s'.heap := by
  induction ts with
  | nil =>
    intro s s' _ hh hrun
    cases hrun
    exact hh
  | cons t ts ih =>
    intro s s' hts hh hrun
    rw [List.foldlM_cons] at hrun
    cases hstep : pstep s t with
    | error e => rw [hstep] at hrun; cases hrun
    | ok s₁ =>
      rw [hstep] at hrun
      exact ih s₁ s' (fun tok htok => hts tok (List.mem_cons_of_mem _ htok))
        (pstep_noquote s t s₁ hstep (hts t (List.mem_cons_self _ _)) hh) hrun

theorem extract_noquote : ∀ (fuel : Nat) (h : Heap), heapNoQuote h →
    ∀ (i : Nat) (t : BTree), extractB h fuel i = some t →
    ∀ v ∈ treeVals t, noQuoteStr v := by
  intro fuel
  induction fuel with
  | zero =>
    intro h _ i t hext
    cases hext
  | succ fuel ih =>
    intro h hh i t hext
    rw [show extractB h (fuel + 1) i = (match h[i]? with
      | none => none
      | some nd =>
        match nd.child.foldr (fun c acc =>
          match acc with
          | none => none
          | some ts =>
            match c with
            | .attr s => some (BTree.attr s :: ts)
            | .node j =>
              match extractB h fuel j with
              | some t => some (t :: ts)
              | none => none) (some []) with
        | some ks => some (.node nd.keyword ks)
        | none => none) from rfl] at hext
    cases hget : h[i]? with
    | none => rw [hget] at hext; cases hext
    | some nd =>
      rw [hget] at hext
      simp only at hext
      have hinner : ∀ (refs : List ChildRef) (ks : List BTree),
          refs.foldr (fun c acc =>
            match acc with
            | none => none
            | some ts =>
              match c with
              | .attr s => some (BTree.attr s :: ts)
              | .node j =>
                match extractB h fuel j with
                | some t => some (t :: ts)
                | none => none) (some []) = some ks →
          (∀ str : String, ChildRef.attr str ∈ refs → noQuoteStr str) →
          ∀ v ∈ kidsVals ks, noQuoteStr v := by
        intro refs
        induction refs with
        | nil =>
          intro ks hks _ v hv
          cases hks
          rw [show kidsVals ([] : List BTree) = [] by simp [kidsVals]] at hv
          cases hv
        | cons c cs ihr =>
          intro ks hks hattrs v hv
          rw [List.foldr_cons] at hks
          cases hrest : cs.foldr (fun c acc =>
            match acc with
            | none => none
            | some ts =>
              match c with
              | .attr s => some (BTree.attr s :: ts)
              | .node j =>
                match extractB h fuel j with
                | some t => some (t :: ts)
                | none => none) (some []) with
          | none => rw [hrest] at hks; cases hks
          | some ks' =>
            rw [hrest] at hks
            cases c with
            | attr str =>
              simp only at hks
              cases hks
              rw [show kidsVals (BTree.attr str :: ks') =
                treeVals (.attr str) ++ kidsVals ks' by simp [kidsVals]] at hv
              rcases List.mem_append.mp hv with h1 | h1
              · rw [show treeVals (BTree.attr str) = [str] by simp [treeVals]] at h1
                have h1' : v = str := by simpa using h1
                rw [h1']
                exact hattrs str (List.mem_cons_self _ _)
              · exact ihr ks' hrest
                  (fun str' hstr' => hattrs str' (List.mem_cons_of_mem _ hstr'))
                  v h1
            | node j =>
              simp only at hks
              cases hext2 : extractB h fuel j with
              | none => rw [hext2] at hks; cases hks
              | some t' =>
                rw [hext2] at hks
                cases hks
                rw [show kidsVals (t' :: ks') =
                  treeVals t' ++ kidsVals ks' by simp [kidsVals]] at hv
                rcases List.mem_append.mp hv with h1 | h1
                · exact ih h hh j t' hext2 v h1
                · exact ihr ks' hrest
                    (fun str' hstr' => hattrs str' (List.mem_cons_of_mem _ hstr'))
                    v h1
      cases hfold : nd.child.foldr (fun c acc =>
        match acc with
        | none => none
        | some ts =>
          match c with
          | .attr s => some (BTree.attr s :: ts)
          | .node j =>
            match extractB h fuel j with
            | some t => some (t :: ts)
            | none => none) (some []) with
      | none => rw [hfold] at hext; cases hext
      | some ks =>
        rw [hfold] at hext
        cases hext
        intro v hv
        rw [show treeVals (BTree.node nd.keyword ks) =
          nd.keyword :: kidsVals ks by simp [treeVals]] at hv
        have hmem : nd ∈ h := List.getElem?_mem hget
        rcases List.mem_cons.mp hv with h1 | h1
        · subst h1
          exact (hh nd hmem).1
        · exact hinner nd.child ks hfold (fun str hstr => (hh nd hmem).2 str hstr) v h1

theorem contains_iff_mem (l : List Char) (a : Char) :
    l.contains a = true ↔ a ∈ l := by
  rw [List.contains_eq_any_beq, List.any_eq_true]
  constructor
  · rintro ⟨x, hx, hbeq⟩
    rw [beq_iff_eq] at hbeq
    rw [hbeq]
    exact hx
  · intro hmem
    exact ⟨a, hmem, by simp⟩

theorem extractTree_is_node (h : Heap) (i : Nat) (t : BTree)
    (hx : extractTree h i = some t) : ∃ kw kids, t = .node kw kids := by
  rw [extractTree] at hx
  rw [show extractB h (h.length + 1) i = (match h[i]? with
    | none => none
    | some nd =>
      match nd.child.foldr (fun c acc =>
        match acc with
        | none => none
        | some ts =>
          match c with
          | .attr s => some (BTree.attr s :: ts)
          | .node j =>
            match extractB h h.length j with
            | some t => some (t :: ts)
            | none => none) (some []) with
      | some ks => some (.node nd.keyword ks)
      | none => none) from rfl] at hx
  cases hget : h[i]? with
  | none => rw [hget] at hx; cases hx
  | some nd =>
    rw [hget] at hx
    simp only at hx
    cases hfold : nd.child.foldr (fun c acc =>
      match acc with
      | none => none
      | some ts =>
        match c with
        | .attr s => some (BTree.attr s :: ts)
        | .node j =>
          match extractB h h.length j with
          | some t => some (t :: ts)
          | none => none) (some []) with
    | none => rw [hfold] at hx; cases hx
    | some ks =>
      rw [hfold] at hx
      cases hx
      exact ⟨nd.keyword, ks, rfl⟩

theorem parse_heap_noquote (D : String) (h : Heap) (r : Option Nat)
    (hp : parse D = .ok (h, r)) : heapNoQuote h := by
  rw [parse, parseTokens] at hp
  cases hrun : (tokenize D).foldlM pstep ⟨[], none, none, []⟩ with
  | error e => rw [hrun] at hp; cases hp
  | ok s' =>
    rw [hrun] at hp
    have hq : heapNoQuote s'.heap :=
      foldl_noquote (tokenize D) ⟨[], none, none, []⟩ s' (tokenize_noquote D)
        (by intro nd hnd; cases hnd) hrun
    have hp2 : (if s'.stack.isEmpty = true then Except.ok (s'.heap, s'.root)
        else Except.error ParseError.malformedDocument) = Except.ok (h, r) := hp
    by_cases hse : s'.stack.isEmpty = true
    · rw [if_pos hse] at hp2
      simp only [Except.ok.injEq, Prod.mk.injEq] at hp2
      rw [← hp2.1]
      exact hq
    · rw [if_neg hse] at hp2
      cases hp2

/-- C1 (amended): for every document `D` that parses to a root node whose
tree `t` has no keyword/attribute value containing a whitespace character
other than plain space, re-parsing `dump t` succeeds with a root that is
structurally equal to `t` (both extract to the very same pure tree).
Parsed values never contain a double quote, which the proof derives rather
than assumes. -/
theorem parse_dump_roundtrip (D : String) (h : Heap) (r : Nat) (t : BTree)
    (hp : parse D = .ok (h, some r))
    (hx : extractTree h r = some t)
    (hws : ∀ v ∈ treeVals t, spaceOnlyStr v) :
    ∃ (h' : Heap) (r' : Nat), parse (dump t) = .ok (h', some r') ∧
      extractTree h' r' = some t := by
  obtain ⟨kw, kids, rfl⟩ := extractTree_is_node h r t hx
  have hhq : heapNoQuote h := parse_heap_noquote D h (some r) hp
  have hnq : ∀ v ∈ treeVals (BTree.node kw kids), noQuoteStr v := by
    intro v hv
    exact extract_noquote (h.length + 1) h hhq r _ hx v hv
  have hmemkw : kw ∈ treeVals (BTree.node kw kids) := by
    rw [show treeVals (BTree.node kw kids) = kw :: kidsVals kids by simp [treeVals]]
    exact List.mem_cons_self _ _
  have hkw : goodStr kw := ⟨hnq kw hmemkw, hws kw hmemkw⟩
  have hgk : goodKids kids := by
    intro v hv
    have hmem : v ∈ treeVals (BTree.node kw kids) := by
      rw [show treeVals (BTree.node kw kids) = kw :: kidsVals kids by
        simp [treeVals]]
      exact List.mem_cons_of_mem _ hv
    exact ⟨hnq v hmem, hws v hmem⟩
  refine ⟨rootHeap kw kids, 0, ?_, rootHeap_extract kw kids⟩
  rw [parse, tokenize_dump kw kids hkw hgk, parseTokens_build]

/-- Witness for C1's amended theorem at the document `"(a b)"`. -/
theorem parse_dump_roundtrip_witness :
    parse "(a b)" = .ok ([⟨none, "a", [.attr "b"]⟩], some 0) ∧
    extractTree [⟨none, "a", [.attr "b"]⟩] 0 = some (.node "a" [.attr "b"]) ∧
    ∃ (h' : Heap) (r' : Nat),
      parse (dump (.node "a" [.attr "b"])) = .ok (h', some r') ∧
      extractTree h' r' = some (.node "a" [.attr "b"]) := by
  refine ⟨rfl, rfl, ?_⟩
  refine parse_dump_roundtrip "(a b)" _ 0 _ rfl rfl ?_
  intro v hv
  rw [show treeVals (BTree.node "a" [.attr "b"]) = ["a", "b"] by
    simp [treeVals, kidsVals]] at hv
  rcases List.mem_cons.mp hv with h1 | h1
  · rw [h1]
    intro c hc
    simp at hc
    subst hc
    decide
  · simp at h1
    rw [h1]
    intro c hc
    simp at hc
    subst hc
    decide

/-- Counterexample for C1 as stated: the document `(k "a\tb")` parses, but
its dump renders the tab-holding value bare, so re-parsing splits it into
two attributes — the round trip is not structurally equal. -/
theorem roundtrip_counterexample :
    parse "(k \"a\tb\")" = .ok ([⟨none, "k", [.attr "a\tb"]⟩], some 0) ∧
    extractTree [⟨none, "k", [.attr "a\tb"]⟩] 0 = some (.node "k" [.attr "a\tb"]) ∧
    dump (.node "k" [.attr "a\tb"]) = "\n(k a\tb)" ∧
    parse "\n(k a\tb)" = .ok ([⟨none, "k", [.attr "a", .attr "b"]⟩], some 0) ∧
    extractTree [⟨none, "k", [.attr "a", .attr "b"]⟩] 0 =
      some (.node "k" [.attr "a", .attr "b"]) ∧
    BTree.node "k" [.attr "a", .attr "b"] ≠ BTree.node "k" [.attr "a\tb"] := by
  refine ⟨rfl, rfl, ?_, rfl, rfl, ?_⟩
  · rw [dump, render, show nodeToTokens (.node "k" [.attr "a\tb"]) =
      [⟨.OPEN, "("⟩, ⟨.KEYWORD, "k"⟩, ⟨.WORD, "a\tb"⟩, ⟨.CLOSE, ")"⟩] by
        simp [nodeToTokens, kidsToTokens]]
    decide
  · intro hcontra
    injection hcontra with h1 h2
    have hlen := congrArg List.length h2
    simp at hlen

/-! ## Claim C2: quoting correctness -/

/-- C2 (amended): `dump` renders a value wrapped in double quotes exactly
when it contains `(`, `)`, a space, or is empty, and bare otherwise; and
tokenizing the dumped text recovers the exact original string value —
whether it stands in keyword or in attribute position — provided the value
contains no double quote and no whitespace other than plain space. -/
theorem quoting_correct (w : String) :
    (needsQuote w = true ↔ ('(' ∈ w.data ∨ ')' ∈ w.data ∨ ' ' ∈ w.data ∨ w = "")) ∧
    (needsQuote w = true → renderWord w = "\"" ++ w ++ "\"") ∧
    (needsQuote w = false → renderWord w = w) ∧
    (goodStr w →
      tokenize ("(" ++ renderWord w ++ ")") =
        [⟨.OPEN, "("⟩, ⟨.KEYWORD, w⟩, ⟨.CLOSE, ")"⟩] ∧
      tokenize ("(k " ++ renderWord w ++ ")") =
        [⟨.OPEN, "("⟩, ⟨.KEYWORD, "k"⟩, ⟨.WORD, w⟩, ⟨.CLOSE, ")"⟩]) := by
  refine ⟨?_, ?_, ?_, ?_⟩
  · rw [needsQuote]
    simp only [Bool.or_eq_true, beq_iff_eq, contains_iff_mem, or_assoc]
  · intro hq
    rw [renderWord, if_pos hq]
  · intro hq
    rw [renderWord, if_neg (by simp [hq])]
  · intro hg
    constructor
    · have hdata : ("(" ++ renderWord w ++ ")").data =
          '(' :: ((renderWord w).data ++ [')']) := by
        simp [String.data_append]
      rw [tokenize, hdata, tokenizeAux_cons,
        show tokStep ⟨false, .KEYWORD, ""⟩ '(' =
          (⟨false, .KEYWORD, ""⟩, flushW .KEYWORD "" ++ [⟨.OPEN, "("⟩]) from
          tokStep_open .KEYWORD ""]
      rw [tokenizeAux_append, scanRenderWord w hg .KEYWORD]
      cases hq : needsQuote w with
      | true =>
        rw [if_pos rfl, tokenizeAux_single, tokStep_close]
        simp [flushW]
      | false =>
        rw [if_neg (by simp), tokenizeAux_single, tokStep_close]
        have hne : w ≠ "" := (needsQuote_false w hq).1
        simp [flushW, hne]
    · have hdata : ("(k " ++ renderWord w ++ ")").data =
          '(' :: 'k' :: ' ' :: ((renderWord w).data ++ [')']) := by
        simp [String.data_append]
      rw [tokenize, hdata, tokenizeAux_cons,
        show tokStep ⟨false, .KEYWORD, ""⟩ '(' =
          (⟨false, .KEYWORD, ""⟩, flushW .KEYWORD "" ++ [⟨.OPEN, "("⟩]) from
          tokStep_open .KEYWORD ""]
      rw [tokenizeAux_cons,
        show tokStep ⟨false, .KEYWORD, ""⟩ 'k' = (⟨false, .KEYWORD, "k"⟩, []) from
          rfl]
      rw [tokenizeAux_cons, tokStep_space_flush .KEYWORD "k" ' ' (by decide)]
      rw [if_neg (by decide)]
      rw [tokenizeAux_append, scanRenderWord w hg .WORD]
      cases hq : needsQuote w with
      | true =>
        rw [if_pos rfl, tokenizeAux_single, tokStep_close]
        simp [flushW]
      | false =>
        rw [if_neg (by simp), tokenizeAux_single, tokStep_close]
        have hne : w ≠ "" := (needsQuote_false w hq).1
        simp [flushW, hne]

/-- Witness for C2's theorem at a quoted and an unquoted value. -/
theorem quoting_correct_witness :
    renderWord "a b" = "\"" ++ "a b" ++ "\"" ∧
    renderWord "ab" = "ab" ∧
    tokenize ("(" ++ renderWord "a b" ++ ")") =
      [⟨.OPEN, "("⟩, ⟨.KEYWORD, "a b"⟩, ⟨.CLOSE, ")"⟩] ∧
    tokenize ("(k " ++ renderWord "ab" ++ ")") =
      [⟨.OPEN, "("⟩, ⟨.KEYWORD, "k"⟩, ⟨.WORD, "ab"⟩, ⟨.CLOSE, ")"⟩] := by
  refine ⟨(quoting_correct "a b").2.1 (by decide),
    (quoting_correct "ab").2.2.1 (by decide), ?_, ?_⟩
  · exact ((quoting_correct "a b").2.2.2
      (by simp only [goodStr, noQuoteStr, spaceOnlyStr]; decide)).1
  · exact ((quoting_correct "ab").2.2.2
      (by simp only [goodStr, noQuoteStr, spaceOnlyStr]; decide)).2

/-- Counterexample for C2 as stated: the value `"a\tb"` needs no quoting
(the rule only checks plain spaces), is emitted bare, and re-tokenizing the
dumped text does not recover it — it splits at the tab. -/
theorem quoting_counterexample :
    needsQuote "a\tb" = false ∧
    renderWord "a\tb" = "a\tb" ∧
    tokenize ("(" ++ renderWord "a\tb" ++ ")") =
      [⟨.OPEN, "("⟩, ⟨.KEYWORD, "a"⟩, ⟨.WORD, "b"⟩, ⟨.CLOSE, ")"⟩] ∧
    ∀ tok ∈ tokenize ("(" ++ renderWord "a\tb" ++ ")"), tok.data ≠ "a\tb" := by
  refine ⟨by decide, by decide, by decide, by decide⟩

end BracketTree
